import Mathlib

/-!
Verification of the log-structured key-value store engine (`src/kv.rs`,
`src/error.rs`).

The engine is embedded shallowly:

* file bytes are modelled as `List Char` (the log format is JSON text);
* the directory is an association list `generation ↦ file content`, sorted by
  generation, mirroring the on-disk set of `{generation}.log` files;
* the serde_json codec is modelled by an executable encoder `encodeEntry`
  (the compact output of `serde_json::to_writer` for `LogEntry`, including
  the string-escaping rules) and an executable decoder over exactly that
  record grammar.  serde_json additionally tolerates whitespace between
  tokens and reordered fields; the engine only ever decodes byte ranges that
  it wrote itself through `encodeEntry`, so the decoder is modelled on that
  grammar, and a strict prefix of a record (a truncated tail) fails to
  decode, exactly as serde_json's stream deserializer reports an error for a
  value interrupted by end of input;
* `u64` values (generations, offsets, lengths) are modelled as `Nat`;
  the engine increments generations by at most 2 per operation, so overflow
  is not reachable in any execution considered here;
* fallible operations return `Except Failure _`; a `panicked` outcome models
  a Rust `expect` failure.
-/

namespace Kvs

/-- Error type of the store, from `src/error.rs` (`KvsError`). -/
inductive KvsError where
  | ioError
  | serdeError
  | keyNotFound
  | unexpectedCommandType
deriving DecidableEq

/-- Outcome of an engine operation: either a `KvsError` propagated through
`Result`, or a panic raised by an `expect` call. -/
inductive Failure where
  | err (e : KvsError)
  | panicked
deriving DecidableEq

/-- Log record, from `src/kv.rs` (`LogEntry`): only `Set` and `Remove` are
persisted. -/
inductive LogEntry where
  | set (key value : String)
  | remove (key : String)
deriving DecidableEq

/-- Position of a persisted command, from `src/kv.rs` (`CommandPos`):
generation number, byte offset and byte length of the record. -/
structure CommandPos where
  generation : Nat
  pos : Nat
  len : Nat
deriving DecidableEq

/-! ## Log entry codec

`serde_json::to_writer` writes compact JSON.  For `LogEntry` the output is
the externally tagged form, e.g. a `Set` record is
`\x7b"Set":\x7b"key":<json string>,"value":<json string>\x7d\x7d`. -/

/-- Lowercase hexadecimal digit, as used by serde_json for `\u` escapes. -/
def hexDigit (n : Nat) : Char :=
  if n < 10 then Char.ofNat (48 + n) else Char.ofNat (87 + n)

/-- Escaping of a single character inside a JSON string, following
serde_json: quote and backslash get a two-character escape, the five named
control characters get their short escapes, all other control characters
get a `\u00xx` escape, and everything else is emitted verbatim. -/
def escapeChar (c : Char) : List Char :=
  if c = '"' then [ '\\', '"' ]
  else if c = '\\' then [ '\\', '\\' ]
  else if c = '\x08' then [ '\\', 'b' ]
  else if c = '\x09' then [ '\\', 't' ]
  else if c = '\x0a' then [ '\\', 'n' ]
  else if c = '\x0c' then [ '\\', 'f' ]
  else if c = '\x0d' then [ '\\', 'r' ]
  else if c.toNat < 32 then [ '\\', 'u', '0', '0', hexDigit (c.toNat / 16), hexDigit (c.toNat % 16) ]
  else [c]

/-- JSON encoding of a string: a quoted sequence of escaped characters. -/
def encodeString (s : String) : List Char :=
  '"' :: s.data.flatMap escapeChar ++ [ '"' ]

/-- Scaffolding of a `Set` record before the key string. -/
def setHead : List Char :=
  [ '\x7b', '"', 'S', 'e', 't', '"', ':', '\x7b', '"', 'k', 'e', 'y', '"', ':' ]

/-- Scaffolding of a `Set` record between the key and the value strings. -/
def setMid : List Char :=
  [ ',', '"', 'v', 'a', 'l', 'u', 'e', '"', ':' ]

/-- Closing braces of a record. -/
def recTail : List Char := [ '\x7d', '\x7d' ]

/-- Scaffolding of a `Remove` record before the key string. -/
def removeHead : List Char :=
  [ '\x7b', '"', 'R', 'e', 'm', 'o', 'v', 'e', '"', ':', '\x7b', '"', 'k', 'e', 'y', '"', ':' ]

/-- Bytes written for one `LogEntry` by `serde_json::to_writer`. -/
def encodeEntry : LogEntry → List Char
  | .set k v => setHead ++ encodeString k ++ setMid ++ encodeString v ++ recTail
  | .remove k => removeHead ++ encodeString k ++ recTail

/-! ## Decoder

The decoder consumes one record from the head of a character stream.  It is
the image of serde_json's `Deserializer` restricted to the records the
engine itself writes (see the module comment). -/

/-- Whitespace characters skipped by serde_json between top-level values. -/
def isWs (c : Char) : Bool :=
  c = ' ' || c = '\x09' || c = '\x0a' || c = '\x0d'

/-- Skips leading whitespace. -/
def skipWs : List Char → List Char
  | [] => []
  | c :: rest => if isWs c then skipWs rest else c :: rest

/-- Value of a hexadecimal digit character. -/
def hexVal (c : Char) : Option Nat :=
  if 48 ≤ c.toNat ∧ c.toNat ≤ 57 then some (c.toNat - 48)
  else if 97 ≤ c.toNat ∧ c.toNat ≤ 102 then some (c.toNat - 87)
  else if 65 ≤ c.toNat ∧ c.toNat ≤ 70 then some (c.toNat - 55)
  else none

/-- Decodes the body of a JSON string after the opening quote, consuming up
to and including the closing quote; returns the decoded characters and the
remaining input.  `none` covers both a malformed escape and input that ends
before the closing quote (serde_json reports an error in both cases, which
is all the engine observes: `load` propagates any `Err` via `?`). -/
def parseStringBody : List Char → Option (List Char × List Char)
  | [] => none
  | c :: rest =>
    if c = '"' then some ([], rest)
    else if c = '\\' then
      match rest with
      | [] => none
      | e :: rest2 =>
        if e = '"' then (parseStringBody rest2).map (fun p => ( '"' :: p.1, p.2))
        else if e = '\\' then (parseStringBody rest2).map (fun p => ( '\\' :: p.1, p.2))
        else if e = '/' then (parseStringBody rest2).map (fun p => ( '/' :: p.1, p.2))
        else if e = 'b' then (parseStringBody rest2).map (fun p => ( '\x08' :: p.1, p.2))
        else if e = 't' then (parseStringBody rest2).map (fun p => ( '\x09' :: p.1, p.2))
        else if e = 'n' then (parseStringBody rest2).map (fun p => ( '\x0a' :: p.1, p.2))
        else if e = 'f' then (parseStringBody rest2).map (fun p => ( '\x0c' :: p.1, p.2))
        else if e = 'r' then (parseStringBody rest2).map (fun p => ( '\x0d' :: p.1, p.2))
        else if e = 'u' then
          match rest2 with
          | a :: b :: c2 :: d :: rest3 =>
            match hexVal a, hexVal b, hexVal c2, hexVal d with
            | some x, some y, some z, some w =>
              (parseStringBody rest3).map
                (fun p => (Char.ofNat (((x * 16 + y) * 16 + z) * 16 + w) :: p.1, p.2))
            | _, _, _, _ => none
          | _ => none
        else none
    else if c.toNat < 32 then none
    else (parseStringBody rest).map (fun p => (c :: p.1, p.2))

/-- Decodes a quoted JSON string (opening quote included). -/
def parseQuoted : List Char → Option (List Char × List Char)
  | '"' :: rest => parseStringBody rest
  | _ => none

/-- Consumes an exact literal sequence from the head of the input. -/
def expectChars : List Char → List Char → Option (List Char)
  | [], l => some l
  | _ :: _, [] => none
  | e :: es, c :: rest => if c = e then expectChars es rest else none

/-- Decodes one `LogEntry` value from the head of the input, returning the
entry and the rest of the input immediately after the record's final brace. -/
def parseEntryVal (l : List Char) : Option (LogEntry × List Char) :=
  match expectChars setHead l with
  | some l1 =>
    match parseQuoted l1 with
    | some (k, l2) =>
      match expectChars setMid l2 with
      | some l3 =>
        match parseQuoted l3 with
        | some (v, l4) =>
          match expectChars recTail l4 with
          | some l5 => some (.set (String.mk k) (String.mk v), l5)
          | none => none
        | none => none
      | none => none
    | none => none
  | none =>
    match expectChars removeHead l with
    | some l1 =>
      match parseQuoted l1 with
      | some (k, l2) =>
        match expectChars recTail l2 with
        | some l3 => some (.remove (String.mk k), l3)
        | none => none
      | none => none
    | none => none

/-- Result of one step of the stream deserializer
(`Deserializer::into_iter::<LogEntry>().next()`): a decoded record, the end
of the stream (`None`), or an error (`Some(Err(_))`, covering both a
malformed record and a record truncated by end of input). -/
inductive ParseOut where
  | record (e : LogEntry) (rest : List Char)
  | streamEnd
  | bad
deriving DecidableEq

/-- One step of the stream deserializer: skip whitespace, report end of
stream on exhausted input, otherwise decode one record. -/
def parseNext (l : List Char) : ParseOut :=
  match skipWs l with
  | [] => .streamEnd
  | c :: rest =>
    match parseEntryVal (c :: rest) with
    | some (e, r) => .record e r
    | none => .bad

/-- Decoding used by `get`: `serde_json::from_reader` over a reader bounded
to the record's byte range decodes one value and then requires the input to
be exhausted (up to whitespace). -/
def fromTake (l : List Char) : Except Failure LogEntry :=
  match parseNext l with
  | .record e rest => if skipWs rest = [] then .ok e else .error (.err .serdeError)
  | .streamEnd => .error (.err .serdeError)
  | .bad => .error (.err .serdeError)

/-! ## Codec round-trip lemmas -/

theorem hexVal_hexDigit : ∀ n, n < 16 → hexVal (hexDigit n) = some n := by decide

theorem parseStringBody_escapes (cs rest : List Char) :
    parseStringBody (cs.flatMap escapeChar ++ '"' :: rest) = some (cs, rest) := by
  induction cs with
  | nil =>
    rw [List.flatMap_nil, List.nil_append, parseStringBody.eq_def]
    simp
  | cons c cs ih =>
    rw [List.flatMap_cons, List.append_assoc]
    by_cases h1 : c = '"'
    · subst h1
      rw [show escapeChar '"' = [ '\\', '"' ] from rfl]
      rw [parseStringBody.eq_def]
      simp [ih]
    by_cases h2 : c = '\\'
    · subst h2
      rw [show escapeChar '\\' = [ '\\', '\\' ] from rfl]
      rw [parseStringBody.eq_def]
      simp [ih]
    by_cases h3 : c = '\x08'
    · subst h3
      rw [show escapeChar '\x08' = [ '\\', 'b' ] from rfl]
      rw [parseStringBody.eq_def]
      simp [ih]
    by_cases h4 : c = '\x09'
    · subst h4
      rw [show escapeChar '\x09' = [ '\\', 't' ] from rfl]
      rw [parseStringBody.eq_def]
      simp [ih]
    by_cases h5 : c = '\x0a'
    · subst h5
      rw [show escapeChar '\x0a' = [ '\\', 'n' ] from rfl]
      rw [parseStringBody.eq_def]
      simp [ih]
    by_cases h6 : c = '\x0c'
    · subst h6
      rw [show escapeChar '\x0c' = [ '\\', 'f' ] from rfl]
      rw [parseStringBody.eq_def]
      simp [ih]
    by_cases h7 : c = '\x0d'
    · subst h7
      rw [show escapeChar '\x0d' = [ '\\', 'r' ] from rfl]
      rw [parseStringBody.eq_def]
      simp [ih]
    by_cases h8 : c.toNat < 32
    · have hesc : escapeChar c =
          [ '\\', 'u', '0', '0', hexDigit (c.toNat / 16), hexDigit (c.toNat % 16) ] := by
        rw [escapeChar]
        simp [h1, h2, h3, h4, h5, h6, h7, h8]
      have hdiv : c.toNat / 16 < 16 := by omega
      have hmod : c.toNat % 16 < 16 := by omega
      rw [hesc, parseStringBody.eq_def]
      simp [ih, hexVal_hexDigit _ hdiv, hexVal_hexDigit _ hmod,
        show hexVal '0' = some 0 from by decide,
        show (((0 * 16 + 0) * 16 + c.toNat / 16) * 16 + c.toNat % 16 : Nat) = c.toNat
          from by omega,
        show (c.toNat / 16 * 16 + c.toNat % 16 : Nat) = c.toNat from by omega,
        Char.ofNat_toNat]
    · have hesc : escapeChar c = [c] := by
        rw [escapeChar]
        simp [h1, h2, h3, h4, h5, h6, h7, h8]
      rw [hesc, parseStringBody.eq_def]
      simp [h1, h2, h8, ih]

theorem parseQuoted_encodeString (s : String) (rest : List Char) :
    parseQuoted (encodeString s ++ rest) = some (s.data, rest) := by
  rw [encodeString, List.cons_append]
  show parseStringBody (s.data.flatMap escapeChar ++ [ '"' ] ++ rest) = some (s.data, rest)
  rw [List.append_assoc, List.singleton_append]
  exact parseStringBody_escapes s.data rest

theorem expectChars_append (xs l : List Char) : expectChars xs (xs ++ l) = some l := by
  induction xs with
  | nil => rfl
  | cons x xs ih => simp [expectChars, ih]

theorem parseEntryVal_encode (e : LogEntry) (rest : List Char) :
    parseEntryVal (encodeEntry e ++ rest) = some (e, rest) := by
  cases e with
  | set k v =>
    rw [encodeEntry, parseEntryVal]
    simp only [List.append_assoc, expectChars_append, parseQuoted_encodeString]
  | remove k =>
    rw [encodeEntry, parseEntryVal]
    have hmismatch : ∀ l, expectChars setHead (removeHead ++ l) = none := by
      intro l
      rw [setHead, removeHead]
      simp [expectChars]
    simp only [List.append_assoc, hmismatch, expectChars_append, parseQuoted_encodeString]

theorem skipWs_cons (c : Char) (l : List Char) (h : isWs c = false) :
    skipWs (c :: l) = c :: l := by
  rw [skipWs, h]
  rfl

theorem encodeEntry_cons (e : LogEntry) : ∃ t, encodeEntry e = '\x7b' :: t := by
  cases e <;> exact ⟨_, rfl⟩

theorem parseNext_encode (e : LogEntry) (rest : List Char) :
    parseNext (encodeEntry e ++ rest) = .record e rest := by
  obtain ⟨t, ht⟩ := encodeEntry_cons e
  have hval : parseEntryVal ('\x7b' :: (t ++ rest)) = some (e, rest) := by
    rw [← List.cons_append, ← ht]
    exact parseEntryVal_encode e rest
  have hskip : skipWs (encodeEntry e ++ rest) = '\x7b' :: (t ++ rest) := by
    rw [ht, List.cons_append]
    exact skipWs_cons _ _ rfl
  rw [parseNext, hskip]
  simp only [hval]

theorem parseNext_nil : parseNext [] = .streamEnd := rfl

theorem fromTake_encode (e : LogEntry) : fromTake (encodeEntry e) = .ok e := by
  have h : parseNext (encodeEntry e) = .record e [] := by
    have := parseNext_encode e []
    rwa [List.append_nil] at this
  rw [fromTake, h]
  rfl

theorem encodeEntry_length_pos (e : LogEntry) : 0 < (encodeEntry e).length := by
  obtain ⟨t, ht⟩ := encodeEntry_cons e
  rw [ht]
  simp

/-! ## Ordered association lists

`BTreeMap<String, CommandPos>` is modelled as an association list sorted by
key, and the `HashMap`s keyed by generation (readers pool, and our model of
the directory) as association lists over `Nat`.  Rust's `Ord` for `String`
is lexicographic on UTF-8 bytes, which coincides with lexicographic
comparison of the code-point sequences used here. -/

/-- Lexicographic strict order on character lists (by code point). -/
def listLt : List Char → List Char → Bool
  | [], [] => false
  | [], _ :: _ => true
  | _ :: _, [] => false
  | a :: as, b :: bs =>
    if a.toNat < b.toNat then true
    else if b.toNat < a.toNat then false
    else listLt as bs

/-- Strict order on keys, mirroring Rust's `Ord for String`. -/
def keyLt (a b : String) : Bool := listLt a.data b.data

theorem listLt_irrefl (l : List Char) : listLt l l = false := by
  induction l with
  | nil => rfl
  | cons c cs ih => simp [listLt, ih]

theorem listLt_asymm (a b : List Char) (h : listLt a b = true) : listLt b a = false := by
  induction a generalizing b with
  | nil =>
    cases b with
    | nil => simp [listLt] at h
    | cons y ys => rfl
  | cons x xs ih =>
    cases b with
    | nil => simp [listLt] at h
    | cons y ys =>
      rw [listLt] at h ⊢
      by_cases hxy : x.toNat < y.toNat
      · have hyx : ¬ y.toNat < x.toNat := by omega
        simp [hxy, hyx]
      by_cases hyx : y.toNat < x.toNat
      · simp [hxy, hyx] at h
      · simp [hxy, hyx] at h ⊢
        exact ih ys h

theorem listLt_total_eq (a b : List Char) (hab : listLt a b = false)
    (hba : listLt b a = false) : a = b := by
  induction a generalizing b with
  | nil =>
    cases b with
    | nil => rfl
    | cons y ys => simp [listLt] at hab
  | cons x xs ih =>
    cases b with
    | nil => simp [listLt] at hba
    | cons y ys =>
      rw [listLt] at hab hba
      by_cases hxy : x.toNat < y.toNat
      · simp [hxy] at hab
      by_cases hyx : y.toNat < x.toNat
      · simp [hyx] at hba
      · simp [hxy, hyx] at hab hba
        have hchar : x = y := by
          have : x.toNat = y.toNat := by omega
          calc x = Char.ofNat x.toNat := (Char.ofNat_toNat x).symm
            _ = Char.ofNat y.toNat := by rw [this]
            _ = y := Char.ofNat_toNat y
        rw [hchar, ih ys hab hba]

theorem listLt_trans (a b c : List Char) (hab : listLt a b = true)
    (hbc : listLt b c = true) : listLt a c = true := by
  induction a generalizing b c with
  | nil =>
    cases c with
    | nil =>
      cases b with
      | nil => simpa using hab
      | cons y ys => simp [listLt] at hbc
    | cons z zs => rfl
  | cons x xs ih =>
    cases b with
    | nil => simp [listLt] at hab
    | cons y ys =>
      cases c with
      | nil => simp [listLt] at hbc
      | cons z zs =>
        rw [listLt] at hab hbc ⊢
        by_cases hxy : x.toNat < y.toNat
        · by_cases hyz : y.toNat < z.toNat
          · have hxz : x.toNat < z.toNat := by omega
            simp [hxz]
          by_cases hzy : z.toNat < y.toNat
          · simp [hyz, hzy] at hbc
          · have hxz : x.toNat < z.toNat := by omega
            simp [hxz]
        by_cases hyx : y.toNat < x.toNat
        · simp [hxy, hyx] at hab
        · by_cases hyz : y.toNat < z.toNat
          · have hxz : x.toNat < z.toNat := by omega
            simp [hxz]
          by_cases hzy : z.toNat < y.toNat
          · simp [hyz, hzy] at hbc
          · simp [hxy, hyx] at hab
            simp [hyz, hzy] at hbc
            have hxz1 : ¬ x.toNat < z.toNat := by omega
            have hxz2 : ¬ z.toNat < x.toNat := by omega
            simp [hxz1, hxz2]
            exact ih ys zs hab hbc

theorem keyLt_irrefl (a : String) : keyLt a a = false := listLt_irrefl a.data

theorem keyLt_asymm (a b : String) (h : keyLt a b = true) : keyLt b a = false :=
  listLt_asymm a.data b.data h

theorem keyLt_total_eq (a b : String) (hab : keyLt a b = false)
    (hba : keyLt b a = false) : a = b := by
  have h := listLt_total_eq a.data b.data hab hba
  calc a = String.mk a.data := rfl
    _ = String.mk b.data := by rw [h]
    _ = b := rfl

theorem keyLt_trans (a b c : String) (hab : keyLt a b = true)
    (hbc : keyLt b c = true) : keyLt a c = true :=
  listLt_trans a.data b.data c.data hab hbc

theorem keyLt_of_not_lt_of_ne (a b : String) (h1 : keyLt a b = false) (h2 : a ≠ b) :
    keyLt b a = true := by
  cases hba : keyLt b a
  · exact absurd (keyLt_total_eq b a hba h1) (fun he => h2 he.symm)
  · rfl

/-! ## The index (`BTreeMap<String, CommandPos>`) -/

/-- In-memory index: key-sorted association list. -/
abbrev Index := List (String × CommandPos)

/-- Lookup, `BTreeMap::get`. -/
def idxFind? : Index → String → Option CommandPos
  | [], _ => none
  | (k, cp) :: rest, key => if key = k then some cp else idxFind? rest key

/-- Insert, `BTreeMap::insert`: returns the updated map and the previous
value for the key, if any. -/
def idxInsert : Index → String → CommandPos → Index × Option CommandPos
  | [], key, cp => ([(key, cp)], none)
  | (k, v) :: rest, key, cp =>
    if keyLt key k then ((key, cp) :: (k, v) :: rest, none)
    else if key = k then ((key, cp) :: rest, some v)
    else
      let r := idxInsert rest key cp
      ((k, v) :: r.1, r.2)

/-- Removal, `BTreeMap::remove`: returns the updated map and the removed
value, if any. -/
def idxErase : Index → String → Index × Option CommandPos
  | [], _ => ([], none)
  | (k, v) :: rest, key =>
    if key = k then (rest, some v)
    else
      let r := idxErase rest key
      ((k, v) :: r.1, r.2)

/-- Sortedness of the index, the representation invariant of `BTreeMap`. -/
def idxSorted (idx : Index) : Prop :=
  idx.Pairwise (fun a b => keyLt a.1 b.1 = true)

theorem idxInsert_cons_lt {k key : String} {v cp : CommandPos} {rest : Index}
    (h : keyLt key k = true) :
    idxInsert ((k, v) :: rest) key cp = ((key, cp) :: (k, v) :: rest, none) := by
  rw [idxInsert.eq_def]
  simp [h]

theorem idxInsert_cons_eq {k key : String} {v cp : CommandPos} {rest : Index}
    (h : key = k) :
    idxInsert ((k, v) :: rest) key cp = ((key, cp) :: rest, some v) := by
  subst h
  rw [idxInsert.eq_def]
  simp [keyLt_irrefl]

theorem idxInsert_cons_gt {k key : String} {v cp : CommandPos} {rest : Index}
    (h1 : keyLt key k = false) (h2 : key ≠ k) :
    idxInsert ((k, v) :: rest) key cp =
      ((k, v) :: (idxInsert rest key cp).1, (idxInsert rest key cp).2) := by
  rw [idxInsert.eq_def]
  simp [h1, h2]

theorem idxErase_cons_eq {k key : String} {v : CommandPos} {rest : Index}
    (h : key = k) : idxErase ((k, v) :: rest) key = (rest, some v) := by
  subst h
  rw [idxErase.eq_def]
  simp

theorem idxErase_cons_ne {k key : String} {v : CommandPos} {rest : Index}
    (h : key ≠ k) :
    idxErase ((k, v) :: rest) key = ((k, v) :: (idxErase rest key).1, (idxErase rest key).2) := by
  rw [idxErase.eq_def]
  simp [h]

theorem idxFind?_eq_none (idx : Index) (key : String) :
    idxFind? idx key = none ↔ ∀ p ∈ idx, p.1 ≠ key := by
  induction idx with
  | nil => simp [idxFind?]
  | cons p rest ih =>
    obtain ⟨k, v⟩ := p
    rw [idxFind?.eq_def]
    by_cases h : key = k
    · simp only [h, if_pos rfl]
      constructor
      · intro hc
        exact Option.noConfusion hc
      · intro hall
        exact ((hall (k, v) (List.mem_cons_self _ _)) rfl).elim
    · simp only [if_neg h]
      constructor
      · intro hf p hp
        rcases List.mem_cons.mp hp with he | hm
        · rw [he]
          intro hk
          exact h hk.symm
        · exact (ih.mp hf) p hm
      · intro hall
        exact ih.mpr (fun p hp => hall p (List.mem_cons_of_mem _ hp))

theorem idxFind?_isSome_mem (idx : Index) (key : String) (cp : CommandPos)
    (h : idxFind? idx key = some cp) : (key, cp) ∈ idx := by
  induction idx with
  | nil => simp [idxFind?] at h
  | cons p rest ih =>
    obtain ⟨k, v⟩ := p
    rw [idxFind?.eq_def] at h
    by_cases he : key = k
    · simp only [he, if_pos rfl] at h
      rw [he, Option.some_inj.mp h]
      exact List.mem_cons_self _ _
    · simp only [if_neg he] at h
      exact List.mem_cons_of_mem _ (ih h)

theorem idxInsert_find?_self (idx : Index) (key : String) (cp : CommandPos) :
    idxFind? (idxInsert idx key cp).1 key = some cp := by
  induction idx with
  | nil => simp [idxInsert, idxFind?]
  | cons p rest ih =>
    obtain ⟨k, v⟩ := p
    rw [idxInsert.eq_def]
    by_cases h1 : keyLt key k
    · simp [h1, idxFind?]
    by_cases h2 : key = k
    · subst h2
      simp [h1, keyLt_irrefl, idxFind?]
    · simp [h1, h2, idxFind?, ih]

theorem idxInsert_find?_ne (idx : Index) (key x : String) (cp : CommandPos)
    (hne : x ≠ key) : idxFind? (idxInsert idx key cp).1 x = idxFind? idx x := by
  induction idx with
  | nil => simp [idxInsert, idxFind?, hne]
  | cons p rest ih =>
    obtain ⟨k, v⟩ := p
    rw [idxInsert.eq_def]
    by_cases h1 : keyLt key k
    · simp [h1, idxFind?, hne]
    by_cases h2 : key = k
    · subst h2
      simp [h1, idxFind?, hne]
    · rw [idxFind?.eq_def]
      by_cases h3 : x = k
      · simp [h1, h2, h3, idxFind?]
      · simp [h1, h2, h3, idxFind?, ih]

theorem idxInsert_mem (idx : Index) (key : String) (cp : CommandPos)
    (p : String × CommandPos) (hp : p ∈ (idxInsert idx key cp).1) :
    p = (key, cp) ∨ p ∈ idx := by
  induction idx with
  | nil =>
    rw [idxInsert] at hp
    rcases List.mem_cons.mp hp with he | hm
    · exact Or.inl he
    · exact absurd hm (List.not_mem_nil p)
  | cons q rest ih =>
    obtain ⟨k, v⟩ := q
    rw [idxInsert.eq_def] at hp
    by_cases h1 : keyLt key k
    · simp only [h1, if_pos] at hp
      rcases List.mem_cons.mp hp with he | hm
      · exact Or.inl he
      · exact Or.inr hm
    by_cases h2 : key = k
    · subst h2
      simp only [keyLt_irrefl, Bool.false_eq_true, if_false, if_pos rfl] at hp
      rcases List.mem_cons.mp hp with he | hm
      · exact Or.inl he
      · exact Or.inr (List.mem_cons_of_mem _ hm)
    · have hlt : (keyLt key k) = false := by
        cases hkk : keyLt key k
        · rfl
        · exact absurd hkk h1
      simp only [hlt, Bool.false_eq_true, if_false, if_neg h2] at hp
      rcases List.mem_cons.mp hp with he | hm
      · exact Or.inr (by rw [he]; exact List.mem_cons_self _ _)
      · rcases ih hm with h | h
        · exact Or.inl h
        · exact Or.inr (List.mem_cons_of_mem _ h)

theorem idxInsert_snd (idx : Index) (key : String) (cp : CommandPos)
    (hs : idxSorted idx) : (idxInsert idx key cp).2 = idxFind? idx key := by
  induction idx with
  | nil => simp [idxInsert, idxFind?]
  | cons p rest ih =>
    obtain ⟨k, v⟩ := p
    rw [idxSorted, List.pairwise_cons] at hs
    rw [idxInsert.eq_def]
    by_cases h1 : keyLt key k
    · have hnone : idxFind? ((k, v) :: rest) key = none := by
        rw [idxFind?_eq_none]
        intro p hp
        rcases List.mem_cons.mp hp with he | hm
        · rw [he]
          intro hk
          have hk' : k = key := hk
          have hirr : keyLt key key = true := by
            have h1' := h1
            rw [hk'] at h1'
            exact h1'
          rw [keyLt_irrefl] at hirr
          exact Bool.false_ne_true hirr
        · intro hk
          have hgt := hs.1 p hm
          rw [hk] at hgt
          have hf := keyLt_asymm _ _ h1
          rw [hf] at hgt
          exact Bool.false_ne_true hgt
      simp [h1, hnone]
    by_cases h2 : key = k
    · subst h2
      simp [keyLt_irrefl, idxFind?]
    · simp [h1, h2, idxFind?, ih hs.2]

theorem idxInsert_sorted (idx : Index) (key : String) (cp : CommandPos)
    (hs : idxSorted idx) : idxSorted (idxInsert idx key cp).1 := by
  induction idx with
  | nil => simp [idxInsert, idxSorted]
  | cons p rest ih =>
    obtain ⟨k, v⟩ := p
    rw [idxSorted, List.pairwise_cons] at hs
    by_cases h1 : keyLt key k
    · rw [idxInsert_cons_lt h1]
      show idxSorted ((key, cp) :: (k, v) :: rest)
      rw [idxSorted, List.pairwise_cons]
      refine ⟨?_, ?_⟩
      · intro p hp
        rcases List.mem_cons.mp hp with he | hm
        · rw [he]
          exact h1
        · exact keyLt_trans _ _ _ h1 (hs.1 p hm)
      · rw [List.pairwise_cons]
        exact hs
    by_cases h2 : key = k
    · rw [idxInsert_cons_eq h2]
      show idxSorted ((key, cp) :: rest)
      rw [idxSorted, List.pairwise_cons]
      subst h2
      exact hs
    · have hlt : keyLt key k = false := by
        cases hkk : keyLt key k
        · rfl
        · exact absurd hkk h1
      rw [idxInsert_cons_gt hlt h2]
      show idxSorted ((k, v) :: (idxInsert rest key cp).1)
      rw [idxSorted, List.pairwise_cons]
      refine ⟨?_, ?_⟩
      · intro p hp
        have hkk : keyLt k key = true := keyLt_of_not_lt_of_ne key k hlt h2
        rcases idxInsert_mem rest key cp p hp with h | h
        · rw [h]
          exact hkk
        · exact hs.1 p h
      · exact ih hs.2

theorem idxErase_snd (idx : Index) (key : String) :
    (idxErase idx key).2 = idxFind? idx key := by
  induction idx with
  | nil => simp [idxErase, idxFind?]
  | cons p rest ih =>
    obtain ⟨k, v⟩ := p
    by_cases h : key = k
    · rw [idxErase_cons_eq h, idxFind?.eq_def]
      simp [h]
    · rw [idxErase_cons_ne h, idxFind?.eq_def]
      simp [h, ih]

theorem idxErase_find?_ne (idx : Index) (key x : String) (hne : x ≠ key) :
    idxFind? (idxErase idx key).1 x = idxFind? idx x := by
  induction idx with
  | nil => simp [idxErase]
  | cons p rest ih =>
    obtain ⟨k, v⟩ := p
    by_cases h : key = k
    · have hx : ¬ x = k := by
        rw [← h]
        exact hne
      have hskip : idxFind? ((k, v) :: rest) x = idxFind? rest x := by
        rw [idxFind?.eq_def]
        simp [hx]
      rw [idxErase_cons_eq h, hskip]
    · rw [idxErase_cons_ne h, idxFind?.eq_def]
      by_cases hx : x = k
      · simp [hx, idxFind?]
      · simp [hx, idxFind?, ih]

theorem idxErase_mem (idx : Index) (key : String) (p : String × CommandPos)
    (hp : p ∈ (idxErase idx key).1) : p ∈ idx := by
  induction idx with
  | nil => simp [idxErase] at hp
  | cons q rest ih =>
    obtain ⟨k, v⟩ := q
    by_cases h : key = k
    · rw [idxErase_cons_eq h] at hp
      exact List.mem_cons_of_mem _ hp
    · rw [idxErase_cons_ne h] at hp
      rcases List.mem_cons.mp hp with he | hm
      · rw [he]
        exact List.mem_cons_self _ _
      · exact List.mem_cons_of_mem _ (ih hm)

theorem idxErase_sorted (idx : Index) (key : String) (hs : idxSorted idx) :
    idxSorted (idxErase idx key).1 := by
  induction idx with
  | nil => simpa [idxErase] using hs
  | cons q rest ih =>
    obtain ⟨k, v⟩ := q
    rw [idxSorted, List.pairwise_cons] at hs
    by_cases h : key = k
    · rw [idxErase_cons_eq h]
      exact hs.2
    · rw [idxErase_cons_ne h]
      show idxSorted ((k, v) :: (idxErase rest key).1)
      rw [idxSorted, List.pairwise_cons]
      exact ⟨fun p hp => hs.1 p (idxErase_mem rest key p hp), ih hs.2⟩

theorem idxErase_find?_self (idx : Index) (key : String) (hs : idxSorted idx) :
    idxFind? (idxErase idx key).1 key = none := by
  induction idx with
  | nil => simp [idxErase, idxFind?]
  | cons q rest ih =>
    obtain ⟨k, v⟩ := q
    rw [idxSorted, List.pairwise_cons] at hs
    by_cases h : key = k
    · rw [idxErase_cons_eq h, idxFind?_eq_none]
      intro p hp hk
      have := hs.1 p hp
      rw [hk, ← h, keyLt_irrefl] at this
      exact Bool.false_ne_true this
    · rw [idxErase_cons_ne h, idxFind?.eq_def]
      simp [h, ih hs.2]

/-! ## Generation-keyed association lists

Models both the on-disk directory (`generation ↦ file content`) and the
readers pool (`generation ↦ cached reader offset`).  Kept sorted by
generation so that the ascending generation list of a directory is just its
key list. -/

/-- Lookup by generation. -/
def alFind? {α : Type} : List (Nat × α) → Nat → Option α
  | [], _ => none
  | (g, a) :: rest, key => if key = g then some a else alFind? rest key

/-- Insert or replace, keeping keys sorted. -/
def alSet {α : Type} : List (Nat × α) → Nat → α → List (Nat × α)
  | [], key, a => [(key, a)]
  | (g, b) :: rest, key, a =>
    if key < g then (key, a) :: (g, b) :: rest
    else if key = g then (key, a) :: rest
    else (g, b) :: alSet rest key a

/-- Removal of a generation. -/
def alErase {α : Type} : List (Nat × α) → Nat → List (Nat × α)
  | [], _ => []
  | (g, b) :: rest, key => if key = g then rest else (g, b) :: alErase rest key

/-- Sortedness by generation. -/
def alSorted {α : Type} (l : List (Nat × α)) : Prop :=
  l.Pairwise (fun a b => a.1 < b.1)

theorem alSet_cons_lt {α : Type} {g key : Nat} {b a : α} {rest : List (Nat × α)}
    (h : key < g) : alSet ((g, b) :: rest) key a = (key, a) :: (g, b) :: rest := by
  rw [alSet.eq_def]
  simp [h]

theorem alSet_cons_eq {α : Type} {g key : Nat} {b a : α} {rest : List (Nat × α)}
    (h : key = g) : alSet ((g, b) :: rest) key a = (key, a) :: rest := by
  subst h
  rw [alSet.eq_def]
  simp

theorem alSet_cons_gt {α : Type} {g key : Nat} {b a : α} {rest : List (Nat × α)}
    (h1 : ¬ key < g) (h2 : key ≠ g) :
    alSet ((g, b) :: rest) key a = (g, b) :: alSet rest key a := by
  rw [alSet.eq_def]
  simp [h1, h2]

theorem alErase_cons_eq {α : Type} {g key : Nat} {b : α} {rest : List (Nat × α)}
    (h : key = g) : alErase ((g, b) :: rest) key = rest := by
  subst h
  rw [alErase.eq_def]
  simp

theorem alErase_cons_ne {α : Type} {g key : Nat} {b : α} {rest : List (Nat × α)}
    (h : key ≠ g) : alErase ((g, b) :: rest) key = (g, b) :: alErase rest key := by
  rw [alErase.eq_def]
  simp [h]

theorem alFind?_alSet_self {α : Type} (l : List (Nat × α)) (key : Nat) (a : α) :
    alFind? (alSet l key a) key = some a := by
  induction l with
  | nil => simp [alSet, alFind?]
  | cons p rest ih =>
    obtain ⟨g, b⟩ := p
    by_cases h1 : key < g
    · rw [alSet_cons_lt h1]
      simp [alFind?]
    by_cases h2 : key = g
    · rw [alSet_cons_eq h2]
      simp [alFind?]
    · rw [alSet_cons_gt h1 h2, alFind?.eq_def]
      simp [h2, ih]

theorem alFind?_alSet_ne {α : Type} (l : List (Nat × α)) (key x : Nat) (a : α)
    (hne : x ≠ key) : alFind? (alSet l key a) x = alFind? l x := by
  induction l with
  | nil => simp [alSet, alFind?, hne]
  | cons p rest ih =>
    obtain ⟨g, b⟩ := p
    by_cases h1 : key < g
    · rw [alSet_cons_lt h1, alFind?.eq_def]
      simp [hne]
    by_cases h2 : key = g
    · subst h2
      rw [alSet_cons_eq rfl]
      have hskip : ∀ (c : α), alFind? ((key, c) :: rest) x = alFind? rest x := by
        intro c
        rw [alFind?.eq_def]
        simp [hne]
      rw [hskip, hskip]
    · rw [alSet_cons_gt h1 h2, alFind?.eq_def]
      by_cases h3 : x = g
      · simp [h3, alFind?]
      · simp [h3, alFind?, ih]

theorem alSet_mem {α : Type} (l : List (Nat × α)) (key : Nat) (a : α)
    (p : Nat × α) (hp : p ∈ alSet l key a) : p = (key, a) ∨ p ∈ l := by
  induction l with
  | nil =>
    rw [alSet] at hp
    rcases List.mem_cons.mp hp with he | hm
    · exact Or.inl he
    · exact absurd hm (List.not_mem_nil p)
  | cons q rest ih =>
    obtain ⟨g, b⟩ := q
    by_cases h1 : key < g
    · rw [alSet_cons_lt h1] at hp
      rcases List.mem_cons.mp hp with he | hm
      · exact Or.inl he
      · exact Or.inr hm
    by_cases h2 : key = g
    · rw [alSet_cons_eq h2] at hp
      rcases List.mem_cons.mp hp with he | hm
      · exact Or.inl he
      · exact Or.inr (List.mem_cons_of_mem _ hm)
    · rw [alSet_cons_gt h1 h2] at hp
      rcases List.mem_cons.mp hp with he | hm
      · exact Or.inr (by rw [he]; exact List.mem_cons_self _ _)
      · rcases ih hm with h | h
        · exact Or.inl h
        · exact Or.inr (List.mem_cons_of_mem _ h)

theorem alSet_sorted {α : Type} (l : List (Nat × α)) (key : Nat) (a : α)
    (hs : alSorted l) : alSorted (alSet l key a) := by
  induction l with
  | nil => simp [alSet, alSorted]
  | cons p rest ih =>
    obtain ⟨g, b⟩ := p
    rw [alSorted, List.pairwise_cons] at hs
    by_cases h1 : key < g
    · rw [alSet_cons_lt h1]
      rw [alSorted, List.pairwise_cons]
      refine ⟨?_, ?_⟩
      · intro p hp
        rcases List.mem_cons.mp hp with he | hm
        · rw [he]
          exact h1
        · exact Nat.lt_trans h1 (hs.1 p hm)
      · rw [List.pairwise_cons]
        exact hs
    by_cases h2 : key = g
    · rw [alSet_cons_eq h2]
      rw [alSorted, List.pairwise_cons]
      subst h2
      exact hs
    · rw [alSet_cons_gt h1 h2]
      rw [alSorted, List.pairwise_cons]
      refine ⟨?_, ?_⟩
      · intro p hp
        have hgk : g < key := by omega
        rcases alSet_mem rest key a p hp with h | h
        · rw [h]
          exact hgk
        · exact hs.1 p h
      · exact ih hs.2

theorem alErase_mem {α : Type} (l : List (Nat × α)) (key : Nat)
    (p : Nat × α) (hp : p ∈ alErase l key) : p ∈ l := by
  induction l with
  | nil => simp [alErase] at hp
  | cons q rest ih =>
    obtain ⟨g, b⟩ := q
    by_cases h : key = g
    · rw [alErase_cons_eq h] at hp
      exact List.mem_cons_of_mem _ hp
    · rw [alErase_cons_ne h] at hp
      rcases List.mem_cons.mp hp with he | hm
      · rw [he]
        exact List.mem_cons_self _ _
      · exact List.mem_cons_of_mem _ (ih hm)

theorem alErase_sorted {α : Type} (l : List (Nat × α)) (key : Nat)
    (hs : alSorted l) : alSorted (alErase l key) := by
  induction l with
  | nil => simp [alErase, alSorted]
  | cons q rest ih =>
    obtain ⟨g, b⟩ := q
    rw [alSorted, List.pairwise_cons] at hs
    by_cases h : key = g
    · rw [alErase_cons_eq h]
      exact hs.2
    · rw [alErase_cons_ne h]
      rw [alSorted, List.pairwise_cons]
      exact ⟨fun p hp => hs.1 p (alErase_mem rest key p hp), ih hs.2⟩

theorem alFind?_isSome_iff_mem {α : Type} (l : List (Nat × α)) (key : Nat) :
    (alFind? l key).isSome = true ↔ key ∈ l.map Prod.fst := by
  induction l with
  | nil => simp [alFind?]
  | cons p rest ih =>
    obtain ⟨g, b⟩ := p
    rw [alFind?.eq_def]
    by_cases h : key = g
    · simp [h]
    · simp [h, ih]

theorem alErase_find?_self {α : Type} (l : List (Nat × α)) (key : Nat)
    (hs : alSorted l) : alFind? (alErase l key) key = none := by
  induction l with
  | nil => simp [alErase, alFind?]
  | cons q rest ih =>
    obtain ⟨g, b⟩ := q
    rw [alSorted, List.pairwise_cons] at hs
    by_cases h : key = g
    · rw [alErase_cons_eq h]
      cases hf : alFind? rest key with
      | none => rfl
      | some c =>
        have hmem : key ∈ rest.map Prod.fst := by
          rw [← alFind?_isSome_iff_mem, hf]
          rfl
        rcases List.mem_map.mp hmem with ⟨p, hp, hpk⟩
        have := hs.1 p hp
        omega
    · rw [alErase_cons_ne h, alFind?.eq_def]
      simp [h, ih hs.2]

theorem alErase_find?_ne {α : Type} (l : List (Nat × α)) (key x : Nat)
    (hne : x ≠ key) : alFind? (alErase l key) x = alFind? l x := by
  induction l with
  | nil => simp [alErase]
  | cons q rest ih =>
    obtain ⟨g, b⟩ := q
    by_cases h : key = g
    · have hx : ¬ x = g := by
        rw [← h]
        exact hne
      have hskip : alFind? ((g, b) :: rest) x = alFind? rest x := by
        rw [alFind?.eq_def]
        simp [hx]
      rw [alErase_cons_eq h, hskip]
    · rw [alErase_cons_ne h, alFind?.eq_def]
      by_cases hx : x = g
      · simp [hx, alFind?]
      · simp [hx, alFind?, ih]

theorem alSet_map_fst_congr {α β : Type} (l₁ : List (Nat × α)) (l₂ : List (Nat × β))
    (h : l₁.map Prod.fst = l₂.map Prod.fst) (key : Nat) (a : α) (b : β) :
    (alSet l₁ key a).map Prod.fst = (alSet l₂ key b).map Prod.fst := by
  induction l₁ generalizing l₂ with
  | nil =>
    cases l₂ with
    | nil => simp [alSet]
    | cons q r => simp at h
  | cons p rest ih =>
    cases l₂ with
    | nil => simp at h
    | cons q rest₂ =>
      obtain ⟨g, x⟩ := p
      obtain ⟨g₂, y⟩ := q
      simp only [List.map_cons, List.cons.injEq] at h
      obtain ⟨hg, hrest⟩ := h
      subst hg
      by_cases h1 : key < g
      · rw [alSet_cons_lt h1, alSet_cons_lt h1]
        simp [hrest]
      by_cases h2 : key = g
      · rw [alSet_cons_eq h2, alSet_cons_eq h2]
        simp [hrest]
      · rw [alSet_cons_gt h1 h2, alSet_cons_gt h1 h2]
        simp [ih rest₂ hrest]

theorem alErase_map_fst_congr {α β : Type} (l₁ : List (Nat × α)) (l₂ : List (Nat × β))
    (h : l₁.map Prod.fst = l₂.map Prod.fst) (key : Nat) :
    (alErase l₁ key).map Prod.fst = (alErase l₂ key).map Prod.fst := by
  induction l₁ generalizing l₂ with
  | nil =>
    cases l₂ with
    | nil => simp [alErase]
    | cons q r => simp at h
  | cons p rest ih =>
    cases l₂ with
    | nil => simp at h
    | cons q rest₂ =>
      obtain ⟨g, x⟩ := p
      obtain ⟨g₂, y⟩ := q
      simp only [List.map_cons, List.cons.injEq] at h
      obtain ⟨hg, hrest⟩ := h
      subst hg
      by_cases h1 : key = g
      · rw [alErase_cons_eq h1, alErase_cons_eq h1]
        exact hrest
      · rw [alErase_cons_ne h1, alErase_cons_ne h1]
        simp [ih rest₂ hrest]

theorem alSet_map_fst_present {α : Type} (l : List (Nat × α)) (key : Nat) (a : α)
    (hs : alSorted l) (hmem : key ∈ l.map Prod.fst) :
    (alSet l key a).map Prod.fst = l.map Prod.fst := by
  induction l with
  | nil => simp at hmem
  | cons p rest ih =>
    obtain ⟨g, b⟩ := p
    rw [alSorted, List.pairwise_cons] at hs
    simp only [List.map_cons, List.mem_cons] at hmem
    by_cases h2 : key = g
    · rw [alSet_cons_eq h2]
      simp [h2]
    · have hmem' : key ∈ rest.map Prod.fst := by
        rcases hmem with h | h
        · exact absurd h h2
        · exact h
      have h1 : ¬ key < g := by
        rcases List.mem_map.mp hmem' with ⟨p, hp, hpk⟩
        have := hs.1 p hp
        omega
      rw [alSet_cons_gt h1 h2]
      simp [ih hs.2 hmem']

theorem alSorted_iff_keys {α : Type} (l : List (Nat × α)) :
    alSorted l ↔ (l.map Prod.fst).Pairwise (· < ·) := by
  rw [alSorted, List.pairwise_map]

/-! ## Replay (`load`)

`load` seeks the reader to offset 0 and folds the stream deserializer over
the file, recording for each decoded record the byte range
`[pos, new_pos)`, where `new_pos` is the deserializer's byte offset after
the record.  A deserialization error (including a record truncated by end
of file) is propagated via `?`, aborting the whole `open`.

The model recurses on fuel `content.length + 1`; fuel cannot run out
because every decoded record consumes at least one character
(`loadLoop_concat` below never reaches the fuel-exhausted branch). -/

/-- Length contributed by a displaced index entry (`old_entry.len`). -/
def oldLenOf : Option CommandPos → Nat
  | some cp => cp.len
  | none => 0

def loadLoop (generation : Nat) :
    Nat → List Char → Nat → Index → Nat → Except Failure (Index × Nat)
  | 0, _, _, _, _ => .error (.err .ioError)
  | fuel + 1, l, pos, idx, unc =>
    match parseNext l with
    | .streamEnd => .ok (idx, unc)
    | .bad => .error (.err .serdeError)
    | .record e rest =>
      let new_pos := pos + (l.length - rest.length)
      match e with
      | .set k _ =>
        let r := idxInsert idx k ⟨generation, pos, new_pos - pos⟩
        loadLoop generation fuel rest new_pos r.1 (unc + oldLenOf r.2)
      | .remove k =>
        let r := idxErase idx k
        loadLoop generation fuel rest new_pos r.1 (unc + oldLenOf r.2)

/-- Replays one generation file into the index, returning the updated index
and the number of stale bytes found (`load` in `src/kv.rs`). -/
def load (generation : Nat) (content : List Char) (idx : Index) :
    Except Failure (Index × Nat) :=
  loadLoop generation (content.length + 1) content 0 idx 0

/-- Record-level image of one `load` step, used to reason about replay of
well-formed files. -/
def replayList (generation : Nat) :
    List LogEntry → Nat → Index → Nat → Index × Nat
  | [], _, idx, unc => (idx, unc)
  | e :: es, pos, idx, unc =>
    let len := (encodeEntry e).length
    match e with
    | .set k _ =>
      let r := idxInsert idx k ⟨generation, pos, len⟩
      replayList generation es (pos + len) r.1 (unc + oldLenOf r.2)
    | .remove k =>
      let r := idxErase idx k
      replayList generation es (pos + len) r.1 (unc + oldLenOf r.2)

/-- Concatenation of the encodings of a record list: the content of a file
to which exactly these records were appended. -/
def encodeAll (es : List LogEntry) : List Char :=
  es.flatMap encodeEntry

/-- Replay of the generation list produced by the segment path catalog:
the loop over `sorted_generation_list` in `KvStore::open`, opening each
generation's file and `load`ing it, accumulating stale bytes. -/
def loadGens (d : List (Nat × List Char)) :
    List Nat → Index → Nat → Except Failure (Index × Nat)
  | [], idx, unc => .ok (idx, unc)
  | g :: gs, idx, unc =>
    match alFind? d g with
    | none => .error (.err .ioError)
    | some c =>
      match load g c idx with
      | .ok r => loadGens d gs r.1 (unc + r.2)
      | .error e => .error e

/-- Readers built during the `open` loop: one per generation, with the
cursor at end of file after a full replay. -/
def buildReaders (d : List (Nat × List Char)) : List Nat → List (Nat × Nat)
  | [] => []
  | g :: gs =>
    match alFind? d g with
    | none => buildReaders d gs
    | some c => alSet (buildReaders d gs) g c.length

/-! ## The engine (`KvStore`) -/

/-- Engine state.  `files` models the directory (content of each
`{generation}.log`), `readers` the pool of `BufReaderWithPos` cursors,
`writerPos` the active writer's `pos` field.  The `path` field of the Rust
struct is subsumed by `files` (the directory's content itself). -/
structure KvStore where
  files : List (Nat × List Char)
  readers : List (Nat × Nat)
  writerPos : Nat
  current_generation : Nat
  index : Index
  uncompacted : Nat
deriving DecidableEq

/-- Compaction threshold, 1 MiB (`COMPACTION_THRESHOLD`). -/
def COMPACTION_THRESHOLD : Nat := 1024 * 1024

/-- Effect of `new_log_file(path, generation, readers)` on the directory and
the readers pool: the file is created if absent (`create(true).append(true)`
keeps existing content), and a fresh reader with cursor 0 is inserted.  The
returned writer has `pos = 0` (the `stream_position` of a freshly opened
append-mode handle). -/
def new_log_file (files : List (Nat × List Char)) (readers : List (Nat × Nat))
    (generation : Nat) : List (Nat × List Char) × List (Nat × Nat) :=
  (if (alFind? files generation).isSome then files else alSet files generation [],
   alSet readers generation 0)

/-- `KvStore::open`: list generations in ascending order, replay each into
a fresh index, then start a new active generation.  The generation list of
the directory is the sorted key list of `files`: the engine's directory
holds exactly the files `{generation}.log`, which `sorted_generation_list`
maps back to their generation numbers (see `sorted_generation_list` below
for the general directory-scanning function). -/
def openStore (d : List (Nat × List Char)) : Except Failure KvStore :=
  let gens := List.insertionSort (· ≤ ·) (d.map Prod.fst)
  match loadGens d gens [] 0 with
  | .error e => .error e
  | .ok r =>
    let current_generation := gens.getLast?.getD 0 + 1
    let fr := new_log_file d (buildReaders d gens) current_generation
    .ok { files := fr.1, readers := fr.2, writerPos := 0,
          current_generation := current_generation, index := r.1, uncompacted := r.2 }

/-- `KvStore::get`: look up the key in the index; on a hit, seek that
generation's reader to `pos`, read exactly `len` bytes, decode one record
and require it to be a `Set`.  The returned state differs from the input
only in the touched reader's cached cursor. -/
def KvStore.get (s : KvStore) (key : String) :
    Except Failure (Option String) × KvStore :=
  match idxFind? s.index key with
  | none => (.ok none, s)
  | some cmd_pos =>
    match alFind? s.readers cmd_pos.generation with
    | none => (.error .panicked, s)
    | some _ =>
      match alFind? s.files cmd_pos.generation with
      | none => (.error (.err .ioError), s)
      | some content =>
        let bytes := (content.drop cmd_pos.pos).take cmd_pos.len
        let s' : KvStore :=
          { s with readers := alSet s.readers cmd_pos.generation (cmd_pos.pos + bytes.length) }
        match fromTake bytes with
        | .ok (.set _ value) => (.ok (some value), s')
        | .ok (.remove _) => (.error (.err .unexpectedCommandType), s')
        | .error e => (.error e, s')

/-- Body of the compaction copy loop: for each live index entry in key
order, seek the source reader to `pos` (skipped when the cached cursor is
already there, with the same outcome), copy exactly `len` bytes into the
compaction writer, and repoint the entry at the copied range. -/
def compactLoop (compaction_generation : Nat) (files : List (Nat × List Char)) :
    List (Nat × Nat) → Index → Nat →
    Except Failure (Index × List (Nat × Nat) × List Char)
  | readers, [], _ => .ok ([], readers, [])
  | readers, (k, cmd_pos) :: rest, new_pos =>
    match alFind? readers cmd_pos.generation with
    | none => .error .panicked
    | some _ =>
      match alFind? files cmd_pos.generation with
      | none => .error (.err .ioError)
      | some content =>
        let bytes := (content.drop cmd_pos.pos).take cmd_pos.len
        let len := bytes.length
        let readers' := alSet readers cmd_pos.generation (cmd_pos.pos + len)
        match compactLoop compaction_generation files readers' rest (new_pos + len) with
        | .ok r => .ok ((k, ⟨compaction_generation, new_pos, len⟩) :: r.1, r.2.1, bytes ++ r.2.2)
        | .error e => .error e

/-- Removal of the stale generations: drop each reader from the pool and
delete its file; `fs::remove_file` on a missing file is an I/O error. -/
def removeStale :
    List Nat → List (Nat × Nat) → List (Nat × List Char) →
    Except Failure (List (Nat × Nat) × List (Nat × List Char))
  | [], readers, files => .ok (readers, files)
  | g :: gs, readers, files =>
    if (alFind? files g).isSome then removeStale gs (alErase readers g) (alErase files g)
    else .error (.err .ioError)

/-- `KvStore::compact`: allocate `current_generation + 1` for the rewritten
live data and `current_generation + 2` as the new active generation, copy
every live record, flush, then delete every generation strictly older than
the compaction generation and reset the stale-byte counter. -/
def KvStore.compact (s : KvStore) : Except Failure KvStore :=
  let compaction_generation := s.current_generation + 1
  let current' := s.current_generation + 2
  let fr1 := new_log_file s.files s.readers current'
  let fr2 := new_log_file fr1.1 fr1.2 compaction_generation
  match compactLoop compaction_generation fr2.1 fr2.2 s.index 0 with
  | .error e => .error e
  | .ok r =>
    let files' := alSet fr2.1 compaction_generation r.2.2
    let stale_gens := (r.2.1.map Prod.fst).filter (fun g => decide (g < compaction_generation))
    match removeStale stale_gens r.2.1 files' with
    | .error e => .error e
    | .ok rf =>
      .ok { files := rf.2, readers := rf.1, writerPos := 0,
            current_generation := current', index := r.1, uncompacted := 0 }

/-- Steps 1–4 of `KvStore::set`: encode the record, append it to the active
writer (flushed), and update the index, counting the displaced entry's
length as stale. -/
def KvStore.setCore (s : KvStore) (key value : String) : KvStore :=
  let data := encodeEntry (LogEntry.set key value)
  let pos := s.writerPos
  let content := (alFind? s.files s.current_generation).getD []
  let new_pos := pos + data.length
  let r := idxInsert s.index key ⟨s.current_generation, pos, new_pos - pos⟩
  { s with
    files := alSet s.files s.current_generation (content ++ data),
    writerPos := new_pos,
    index := r.1,
    uncompacted := s.uncompacted + oldLenOf r.2 }

/-- `KvStore::set`: steps 1–4, then compaction exactly when the stale-byte
counter strictly exceeds the threshold. -/
def KvStore.set (s : KvStore) (key value : String) : Except Failure KvStore :=
  let s1 := s.setCore key value
  if s1.uncompacted > COMPACTION_THRESHOLD then s1.compact else .ok s1

/-- `KvStore::remove`: fail with `KeyNotFound` when the key is absent
(leaving the state untouched); otherwise append a `Remove` record (flushed)
and evict the key from the index, counting the evicted entry as stale. -/
def KvStore.remove (s : KvStore) (key : String) : Except Failure Unit × KvStore :=
  if (idxFind? s.index key).isSome then
    let data := encodeEntry (LogEntry.remove key)
    let content := (alFind? s.files s.current_generation).getD []
    let r := idxErase s.index key
    match r.2 with
    | some old_cmd =>
      (.ok (),
       { s with
         files := alSet s.files s.current_generation (content ++ data),
         writerPos := s.writerPos + data.length,
         index := r.1,
         uncompacted := s.uncompacted + old_cmd.len })
    | none => (.error .panicked, s)
  else (.error (.err .keyNotFound), s)

/-! ## Replay lemmas -/

theorem encodeAll_nil : encodeAll [] = [] := rfl

theorem encodeAll_cons (e : LogEntry) (es : List LogEntry) :
    encodeAll (e :: es) = encodeEntry e ++ encodeAll es := by
  rw [encodeAll, encodeAll, List.flatMap_cons]

theorem encodeAll_append (es₁ es₂ : List LogEntry) :
    encodeAll (es₁ ++ es₂) = encodeAll es₁ ++ encodeAll es₂ := by
  rw [encodeAll, encodeAll, encodeAll, List.flatMap_append]

theorem alFind?_mem {α : Type} (l : List (Nat × α)) (key : Nat) (a : α)
    (h : alFind? l key = some a) : (key, a) ∈ l := by
  induction l with
  | nil => simp [alFind?] at h
  | cons p rest ih =>
    obtain ⟨g, b⟩ := p
    rw [alFind?.eq_def] at h
    by_cases he : key = g
    · simp only [he, if_pos rfl] at h
      rw [he, Option.some_inj.mp h]
      exact List.mem_cons_self _ _
    · simp only [if_neg he] at h
      exact List.mem_cons_of_mem _ (ih h)

theorem loadLoop_concat (generation : Nat) (es : List LogEntry) :
    ∀ (fuel pos : Nat) (idx : Index) (unc : Nat), (encodeAll es).length < fuel →
    loadLoop generation fuel (encodeAll es) pos idx unc =
      .ok (replayList generation es pos idx unc) := by
  induction es with
  | nil =>
    intro fuel pos idx unc hfuel
    cases fuel with
    | zero => omega
    | succ f =>
      rw [encodeAll_nil, loadLoop, parseNext_nil, replayList]
  | cons e es ih =>
    intro fuel pos idx unc hfuel
    rw [encodeAll_cons] at hfuel ⊢
    cases fuel with
    | zero => omega
    | succ f =>
      rw [loadLoop, parseNext_encode]
      have hlen : (encodeEntry e ++ encodeAll es).length - (encodeAll es).length =
          (encodeEntry e).length := by
        rw [List.length_append]
        omega
      have hfuel' : (encodeAll es).length < f := by
        have := encodeEntry_length_pos e
        rw [List.length_append] at hfuel
        omega
      cases e with
      | set k v =>
        simp only [hlen]
        rw [ih f (pos + (encodeEntry (LogEntry.set k v)).length) _ _ hfuel']
        rw [replayList]
        simp only [Nat.add_sub_cancel_left]
      | remove k =>
        simp only [hlen]
        rw [ih f (pos + (encodeEntry (LogEntry.remove k)).length) _ _ hfuel']
        rw [replayList]

theorem load_concat (generation : Nat) (es : List LogEntry) (idx : Index) :
    load generation (encodeAll es) idx = .ok (replayList generation es 0 idx 0) := by
  rw [load]
  exact loadLoop_concat generation es _ 0 idx 0 (by omega)

theorem replayList_append (generation : Nat) (es₁ es₂ : List LogEntry) :
    ∀ (pos : Nat) (idx : Index) (unc : Nat),
    replayList generation (es₁ ++ es₂) pos idx unc =
      replayList generation es₂ (pos + (encodeAll es₁).length)
        (replayList generation es₁ pos idx unc).1
        (replayList generation es₁ pos idx unc).2 := by
  induction es₁ with
  | nil =>
    intro pos idx unc
    rw [List.nil_append, encodeAll_nil, replayList]
    simp
  | cons e es ih =>
    intro pos idx unc
    rw [List.cons_append, encodeAll_cons, List.length_append]
    cases e with
    | set k v =>
      rw [replayList, replayList]
      rw [ih]
      rw [Nat.add_assoc]
    | remove k =>
      rw [replayList, replayList]
      rw [ih]
      rw [Nat.add_assoc]

theorem loadGens_cons_none (d : List (Nat × List Char)) (g : Nat) (gs : List Nat)
    (idx : Index) (unc : Nat) (h : alFind? d g = none) :
    loadGens d (g :: gs) idx unc = .error (.err .ioError) := by
  rw [loadGens, h]

theorem loadGens_cons_ok (d : List (Nat × List Char)) (g : Nat) (gs : List Nat)
    (idx : Index) (unc : Nat) (c : List Char) (r : Index × Nat)
    (h : alFind? d g = some c) (hl : load g c idx = .ok r) :
    loadGens d (g :: gs) idx unc = loadGens d gs r.1 (unc + r.2) := by
  rw [loadGens, h]
  simp [hl]

theorem loadGens_cons_err (d : List (Nat × List Char)) (g : Nat) (gs : List Nat)
    (idx : Index) (unc : Nat) (c : List Char) (e : Failure)
    (h : alFind? d g = some c) (hl : load g c idx = .error e) :
    loadGens d (g :: gs) idx unc = .error e := by
  rw [loadGens, h]
  simp [hl]

theorem loadGens_append (d : List (Nat × List Char)) (xs ys : List Nat) :
    ∀ (idx : Index) (unc : Nat),
    loadGens d (xs ++ ys) idx unc =
      match loadGens d xs idx unc with
      | .ok r => loadGens d ys r.1 r.2
      | .error e => .error e := by
  induction xs with
  | nil =>
    intro idx unc
    rw [List.nil_append, loadGens]
  | cons g gs ih =>
    intro idx unc
    rw [List.cons_append]
    cases hg : alFind? d g with
    | none => rw [loadGens_cons_none _ _ _ _ _ hg, loadGens_cons_none _ _ _ _ _ hg]
    | some c =>
      cases hl : load g c idx with
      | ok r =>
        rw [loadGens_cons_ok _ _ _ _ _ _ _ hg hl, loadGens_cons_ok _ _ _ _ _ _ _ hg hl]
        exact ih r.1 (unc + r.2)
      | error e =>
        rw [loadGens_cons_err _ _ _ _ _ _ _ hg hl, loadGens_cons_err _ _ _ _ _ _ _ hg hl]

theorem loadGens_append_ok (d : List (Nat × List Char)) (xs ys : List Nat)
    (idx : Index) (unc : Nat) (r : Index × Nat)
    (hxs : loadGens d xs idx unc = .ok r) :
    loadGens d (xs ++ ys) idx unc = loadGens d ys r.1 r.2 := by
  rw [loadGens_append, hxs]

theorem loadGens_congr (d d' : List (Nat × List Char)) (gs : List Nat)
    (h : ∀ g ∈ gs, alFind? d' g = alFind? d g) :
    ∀ (idx : Index) (unc : Nat), loadGens d' gs idx unc = loadGens d gs idx unc := by
  induction gs with
  | nil => intro idx unc; rfl
  | cons g gs ih =>
    intro idx unc
    have hg' : alFind? d' g = alFind? d g := h g (List.mem_cons_self _ _)
    cases hg : alFind? d g with
    | none =>
      rw [loadGens_cons_none _ _ _ _ _ (hg'.trans hg), loadGens_cons_none _ _ _ _ _ hg]
    | some c =>
      cases hl : load g c idx with
      | ok r =>
        rw [loadGens_cons_ok _ _ _ _ _ _ _ (hg'.trans hg) hl,
          loadGens_cons_ok _ _ _ _ _ _ _ hg hl]
        exact ih (fun x hx => h x (List.mem_cons_of_mem _ hx)) r.1 (unc + r.2)
      | error e =>
        rw [loadGens_cons_err _ _ _ _ _ _ _ (hg'.trans hg) hl,
          loadGens_cons_err _ _ _ _ _ _ _ hg hl]

/-! ## Byte-range lemmas -/

theorem slice_append_left (c d : List Char) (pos len : Nat)
    (h : pos + len ≤ c.length) :
    ((c ++ d).drop pos).take len = (c.drop pos).take len := by
  rw [List.drop_append_of_le_length (by omega)]
  rw [List.take_append_of_le_length (by simp; omega)]

theorem slice_append_self (c d : List Char) :
    ((c ++ d).drop c.length).take d.length = d := by
  rw [List.drop_left, List.take_length]

/-- In a strictly sorted list, a member that bounds the list from above is
its last element. -/
theorem sorted_getLast_of_max (l : List Nat) (c : Nat) (hs : l.Pairwise (· < ·))
    (hmem : c ∈ l) (hle : ∀ x ∈ l, x ≤ c) : l.getLast? = some c := by
  induction l with
  | nil => simp at hmem
  | cons x xs ih =>
    rw [List.pairwise_cons] at hs
    cases hxs : xs with
    | nil =>
      rcases List.mem_cons.mp hmem with he | hm
      · rw [he]
        rfl
      · rw [hxs] at hm
        simp at hm
    | cons y ys =>
      subst hxs
      rw [List.getLast?_cons_cons]
      have hcm : c ∈ y :: ys := by
        rcases List.mem_cons.mp hmem with he | hm
        · exfalso
          have hy : y ∈ y :: ys := List.mem_cons_self _ _
          have h1 := hs.1 y hy
          have h2 := hle y (List.mem_cons_of_mem _ hy)
          omega
        · exact hm
      exact ih hs.2 hcm (fun z hz => hle z (List.mem_cons_of_mem _ hz))

/-! ## The reachability invariant -/

/-- The byte range of `cp` in the directory `files` holds exactly the
encoding of `e`. -/
def cpReads (files : List (Nat × List Char)) (cp : CommandPos) (e : LogEntry) : Prop :=
  ∃ content, alFind? files cp.generation = some content ∧
    cp.pos + cp.len ≤ content.length ∧
    (content.drop cp.pos).take cp.len = encodeEntry e ∧
    cp.len = (encodeEntry e).length

/-- Pointwise update of the abstract key/value map. -/
def mupd (m : String → Option String) (key : String) (v : Option String) :
    String → Option String :=
  fun x => if x = key then v else m x

/-- Invariant tying an engine state to the abstract map `m` it represents.
`replay` states that replaying the directory reproduces the in-memory index
and stale-byte counter exactly: this is what makes reopening lossless. -/
structure Inv (s : KvStore) (m : String → Option String) : Prop where
  files_sorted : alSorted s.files
  readers_keys : s.readers.map Prod.fst = s.files.map Prod.fst
  files_wf : ∀ p ∈ s.files, ∃ es : List LogEntry, p.2 = encodeAll es
  keys_le : ∀ p ∈ s.files, p.1 ≤ s.current_generation
  cur_file : ∃ c, alFind? s.files s.current_generation = some c ∧ s.writerPos = c.length
  index_sorted : idxSorted s.index
  index_none : ∀ k, idxFind? s.index k = none ↔ m k = none
  index_some : ∀ k cp, idxFind? s.index k = some cp →
    ∃ v, m k = some v ∧ cpReads s.files cp (.set k v)
  replay : loadGens s.files (s.files.map Prod.fst) [] 0 = .ok (s.index, s.uncompacted)

theorem Inv.readers_sorted {s : KvStore} {m : String → Option String} (h : Inv s m) :
    alSorted s.readers := by
  rw [alSorted_iff_keys, h.readers_keys, ← alSorted_iff_keys]
  exact h.files_sorted

theorem Inv.cur_mem_keys {s : KvStore} {m : String → Option String} (h : Inv s m) :
    s.current_generation ∈ s.files.map Prod.fst := by
  obtain ⟨c, hc, _⟩ := h.cur_file
  rw [← alFind?_isSome_iff_mem, hc]
  rfl

theorem Inv.keys_getLast {s : KvStore} {m : String → Option String} (h : Inv s m) :
    (s.files.map Prod.fst).getLast? = some s.current_generation := by
  apply sorted_getLast_of_max _ _ ((alSorted_iff_keys s.files).mp h.files_sorted)
    h.cur_mem_keys
  intro x hx
  rcases List.mem_map.mp hx with ⟨p, hp, hpx⟩
  rw [← hpx]
  exact h.keys_le p hp

theorem Inv.keys_decomp {s : KvStore} {m : String → Option String} (h : Inv s m) :
    s.files.map Prod.fst =
      (s.files.map Prod.fst).dropLast ++ [s.current_generation] ∧
      ∀ g ∈ (s.files.map Prod.fst).dropLast, g < s.current_generation := by
  have hne : s.files.map Prod.fst ≠ [] := by
    intro hnil
    have := h.cur_mem_keys
    rw [hnil] at this
    simp at this
  have hlast := h.keys_getLast
  have hlast' : (s.files.map Prod.fst).getLast hne = s.current_generation := by
    rw [List.getLast?_eq_getLast _ hne] at hlast
    exact Option.some_inj.mp hlast
  constructor
  · rw [← hlast']
    exact (List.dropLast_append_getLast hne).symm
  · intro g hg
    have hsorted := (alSorted_iff_keys s.files).mp h.files_sorted
    have hdecomp : s.files.map Prod.fst =
        (s.files.map Prod.fst).dropLast ++ [s.current_generation] := by
      rw [← hlast']
      exact (List.dropLast_append_getLast hne).symm
    rw [hdecomp, List.pairwise_append] at hsorted
    exact hsorted.2.2 g hg s.current_generation (List.mem_singleton.mpr rfl)

/-! ## Lemmas about `get` -/

theorem get_fst (s : KvStore) (m : String → Option String) (k : String) (h : Inv s m) :
    (KvStore.get s k).1 = .ok (m k) := by
  cases hf : idxFind? s.index k with
  | none =>
    have hm := (h.index_none k).mp hf
    rw [hm]
    simp only [KvStore.get, hf]
  | some cp =>
    obtain ⟨v, hv, hcp⟩ := h.index_some k cp hf
    obtain ⟨content, hcontent, hle, hslice, hlen⟩ := hcp
    have hrk : (alFind? s.readers cp.generation).isSome = true := by
      rw [alFind?_isSome_iff_mem, h.readers_keys, ← alFind?_isSome_iff_mem, hcontent]
      rfl
    obtain ⟨rpos, hrpos⟩ := Option.isSome_iff_exists.mp hrk
    rw [hv]
    simp only [KvStore.get, hf, hrpos, hcontent, hslice, fromTake_encode]

theorem get_snd_cases (s : KvStore) (k : String) :
    (KvStore.get s k).2 = s ∨
    ∃ gen pos, (alFind? s.readers gen).isSome = true ∧
      (KvStore.get s k).2 = { s with readers := alSet s.readers gen pos } := by
  cases hf : idxFind? s.index k with
  | none =>
    left
    simp only [KvStore.get, hf]
  | some cp =>
    cases hr : alFind? s.readers cp.generation with
    | none =>
      left
      simp only [KvStore.get, hf, hr]
    | some rpos =>
      cases hc : alFind? s.files cp.generation with
      | none =>
        left
        simp only [KvStore.get, hf, hr, hc]
      | some content =>
        right
        refine ⟨cp.generation, cp.pos + ((content.drop cp.pos).take cp.len).length,
          by rw [hr]; rfl, ?_⟩
        cases ht : fromTake ((content.drop cp.pos).take cp.len) with
        | ok e =>
          cases e with
          | set a b => simp only [KvStore.get, hf, hr, hc, ht]
          | remove a => simp only [KvStore.get, hf, hr, hc, ht]
        | error e => simp only [KvStore.get, hf, hr, hc, ht]

theorem get_Inv (s : KvStore) (m : String → Option String) (k : String)
    (h : Inv s m) : Inv ((KvStore.get s k).2) m := by
  rcases get_snd_cases s k with hcase | ⟨gen, pos, hmem, hcase⟩
  · rw [hcase]
    exact h
  · rw [hcase]
    have hkeys : (alSet s.readers gen pos).map Prod.fst = s.readers.map Prod.fst :=
      alSet_map_fst_present s.readers gen pos h.readers_sorted
        (by rw [← alFind?_isSome_iff_mem]; exact hmem)
    exact {
      files_sorted := h.files_sorted
      readers_keys := by rw [hkeys]; exact h.readers_keys
      files_wf := h.files_wf
      keys_le := h.keys_le
      cur_file := h.cur_file
      index_sorted := h.index_sorted
      index_none := h.index_none
      index_some := h.index_some
      replay := h.replay }

/-! ## Appending one record to the active generation -/

theorem encodeAll_singleton (e : LogEntry) : encodeAll [e] = encodeEntry e := by
  rw [encodeAll, List.flatMap_cons, List.flatMap_nil, List.append_nil]

theorem cpReads_preserved (files : List (Nat × List Char)) (cur : Nat)
    (c data : List Char) (hc : alFind? files cur = some c)
    (cp : CommandPos) (e : LogEntry) (h : cpReads files cp e) :
    cpReads (alSet files cur (c ++ data)) cp e := by
  obtain ⟨content, hcontent, hle, hslice, hlen⟩ := h
  by_cases hg : cp.generation = cur
  · have hcc : content = c := by
      rw [hg, hc] at hcontent
      exact (Option.some_inj.mp hcontent).symm
    subst hcc
    refine ⟨content ++ data, ?_, ?_, ?_, hlen⟩
    · rw [hg]
      exact alFind?_alSet_self _ _ _
    · rw [List.length_append]
      omega
    · rw [slice_append_left _ _ _ _ hle]
      exact hslice
  · exact ⟨content, by rw [alFind?_alSet_ne _ _ _ _ hg]; exact hcontent, hle, hslice, hlen⟩

/-- Replaying the directory after appending one encoded record to the
active generation's file yields exactly one more `replayList` step on top
of the in-memory index and counter. -/
theorem replay_after_append (s : KvStore) (m : String → Option String)
    (h : Inv s m) (e : LogEntry) (c : List Char)
    (hc : alFind? s.files s.current_generation = some c) :
    loadGens (alSet s.files s.current_generation (c ++ encodeEntry e))
        ((alSet s.files s.current_generation (c ++ encodeEntry e)).map Prod.fst) [] 0 =
      .ok (replayList s.current_generation [e] c.length s.index s.uncompacted) := by
  obtain ⟨hdecomp, hlt⟩ := h.keys_decomp
  obtain ⟨es, hes0⟩ := h.files_wf (s.current_generation, c) (alFind?_mem _ _ _ hc)
  have hes : c = encodeAll es := hes0
  have hkeys : (alSet s.files s.current_generation (c ++ encodeEntry e)).map Prod.fst =
      s.files.map Prod.fst :=
    alSet_map_fst_present _ _ _ h.files_sorted h.cur_mem_keys
  -- decompose the old replay along dropLast ++ [current]
  have hold := h.replay
  rw [hdecomp] at hold
  cases hks : loadGens s.files (s.files.map Prod.fst).dropLast [] 0 with
  | error err =>
    rw [loadGens_append, hks] at hold
    simp at hold
  | ok r0 =>
    rw [loadGens_append_ok _ _ _ _ _ _ hks] at hold
    -- the final step of the old replay
    have hcs : alFind? s.files s.current_generation = some (encodeAll es) := by
      rw [hc, hes]
    have hstep := loadGens_cons_ok s.files s.current_generation [] r0.1 r0.2
      (encodeAll es) _ hcs (load_concat s.current_generation es r0.1)
    rw [hstep, loadGens] at hold
    have hpair := Except.ok.inj hold
    have hidx : (replayList s.current_generation es 0 r0.1 0).1 = s.index :=
      congrArg Prod.fst hpair
    have hunc : r0.2 + (replayList s.current_generation es 0 r0.1 0).2 = s.uncompacted :=
      congrArg Prod.snd hpair
    -- the new replay
    have hks' : loadGens (alSet s.files s.current_generation (c ++ encodeEntry e))
        (s.files.map Prod.fst).dropLast [] 0 = .ok r0 := by
      rw [← hks]
      apply loadGens_congr
      intro g hg
      have hne : g ≠ s.current_generation := by
        have := hlt g hg
        omega
      exact alFind?_alSet_ne _ _ _ _ hne
    rw [hkeys, hdecomp, loadGens_append_ok _ _ _ _ _ _ hks']
    have hcs' : alFind? (alSet s.files s.current_generation (c ++ encodeEntry e))
        s.current_generation = some (encodeAll (es ++ [e])) := by
      rw [alFind?_alSet_self, encodeAll_append, encodeAll_singleton, hes]
    have hstep' := loadGens_cons_ok
      (alSet s.files s.current_generation (c ++ encodeEntry e))
      s.current_generation [] r0.1 r0.2 (encodeAll (es ++ [e])) _ hcs'
      (load_concat s.current_generation (es ++ [e]) r0.1)
    rw [hstep', loadGens]
    -- split the record level replay at the appended record
    rw [replayList_append, hidx]
    have hclen : (encodeAll es).length = c.length := by
      rw [hes]
    rw [hclen, Nat.zero_add]
    -- both sides are one replay step from (s.index, accumulated stale bytes)
    cases e with
    | set k v =>
      simp only [replayList, Except.ok.injEq, Prod.mk.injEq]
      exact ⟨trivial, by omega⟩
    | remove k =>
      simp only [replayList, Except.ok.injEq, Prod.mk.injEq]
      exact ⟨trivial, by omega⟩

/-! ## `set` preserves the invariant -/

theorem setCore_eq (s : KvStore) (k v : String) (c : List Char)
    (hc : alFind? s.files s.current_generation = some c)
    (hw : s.writerPos = c.length) :
    s.setCore k v =
      { files := alSet s.files s.current_generation (c ++ encodeEntry (.set k v)),
        readers := s.readers,
        writerPos := c.length + (encodeEntry (.set k v)).length,
        current_generation := s.current_generation,
        index := (idxInsert s.index k
          ⟨s.current_generation, c.length, (encodeEntry (.set k v)).length⟩).1,
        uncompacted := s.uncompacted + oldLenOf (idxInsert s.index k
          ⟨s.current_generation, c.length, (encodeEntry (.set k v)).length⟩).2 } := by
  have harith : c.length + (encodeEntry (LogEntry.set k v)).length - c.length =
      (encodeEntry (LogEntry.set k v)).length := by omega
  simp only [KvStore.setCore, hc, Option.getD_some, hw, harith]

theorem setCore_Inv (s : KvStore) (m : String → Option String) (k v : String)
    (h : Inv s m) : Inv (s.setCore k v) (mupd m k (some v)) := by
  obtain ⟨c, hc, hw⟩ := h.cur_file
  rw [setCore_eq s k v c hc hw]
  have hkeys1 : (alSet s.files s.current_generation
      (c ++ encodeEntry (.set k v))).map Prod.fst = s.files.map Prod.fst :=
    alSet_map_fst_present _ _ _ h.files_sorted h.cur_mem_keys
  exact {
    files_sorted := alSet_sorted _ _ _ h.files_sorted
    readers_keys := by
      rw [hkeys1]
      exact h.readers_keys
    files_wf := by
      intro p hp
      rcases alSet_mem _ _ _ p hp with he | hm
      · obtain ⟨es, hes0⟩ := h.files_wf (s.current_generation, c) (alFind?_mem _ _ _ hc)
        have hes : c = encodeAll es := hes0
        refine ⟨es ++ [.set k v], ?_⟩
        rw [he, encodeAll_append, encodeAll_singleton, ← hes]
      · exact h.files_wf p hm
    keys_le := by
      intro p hp
      rcases alSet_mem _ _ _ p hp with he | hm
      · rw [he]
      · exact h.keys_le p hm
    cur_file := by
      refine ⟨c ++ encodeEntry (.set k v), alFind?_alSet_self _ _ _, ?_⟩
      rw [List.length_append]
    index_sorted := idxInsert_sorted _ _ _ h.index_sorted
    index_none := by
      intro x
      by_cases hx : x = k
      · subst hx
        rw [idxInsert_find?_self]
        simp [mupd]
      · rw [idxInsert_find?_ne _ _ _ _ hx]
        have := h.index_none x
        simpa [mupd, hx] using this
    index_some := by
      intro x cp hcp
      by_cases hx : x = k
      · subst hx
        rw [idxInsert_find?_self] at hcp
        have hcpeq := (Option.some_inj.mp hcp).symm
        refine ⟨v, by simp [mupd], ?_⟩
        rw [hcpeq]
        refine ⟨c ++ encodeEntry (.set x v), alFind?_alSet_self _ _ _, ?_, ?_, rfl⟩
        · rw [List.length_append]
        · exact slice_append_self c _
      · rw [idxInsert_find?_ne _ _ _ _ hx] at hcp
        obtain ⟨v', hv', hcpr⟩ := h.index_some x cp hcp
        refine ⟨v', by simpa [mupd, hx] using hv', ?_⟩
        exact cpReads_preserved _ _ _ _ hc _ _ hcpr
    replay := by
      have hr := replay_after_append s m h (.set k v) c hc
      simpa only [replayList] using hr }

/-! ## `remove` and the invariant -/

theorem remove_not_found (s : KvStore) (k : String)
    (hf : idxFind? s.index k = none) :
    KvStore.remove s k = (.error (.err .keyNotFound), s) := by
  rw [KvStore.remove]
  simp [hf]

theorem remove_found_eq (s : KvStore) (k : String) (c : List Char) (cp : CommandPos)
    (hc : alFind? s.files s.current_generation = some c)
    (hf : idxFind? s.index k = some cp) :
    KvStore.remove s k =
      (.ok (),
       { files := alSet s.files s.current_generation (c ++ encodeEntry (.remove k)),
         readers := s.readers,
         writerPos := s.writerPos + (encodeEntry (.remove k)).length,
         current_generation := s.current_generation,
         index := (idxErase s.index k).1,
         uncompacted := s.uncompacted + cp.len }) := by
  have hsnd : (idxErase s.index k).2 = some cp := by
    rw [idxErase_snd, hf]
  simp only [KvStore.remove, hf, Option.isSome_some, if_pos, hc, Option.getD_some, hsnd]

theorem remove_found_Inv (s : KvStore) (m : String → Option String) (k : String)
    (cp : CommandPos) (h : Inv s m) (hf : idxFind? s.index k = some cp) :
    Inv ((KvStore.remove s k).2) (mupd m k none) := by
  obtain ⟨c, hc, hw⟩ := h.cur_file
  rw [remove_found_eq s k c cp hc hf]
  have hkeys1 : (alSet s.files s.current_generation
      (c ++ encodeEntry (.remove k))).map Prod.fst = s.files.map Prod.fst :=
    alSet_map_fst_present _ _ _ h.files_sorted h.cur_mem_keys
  exact {
    files_sorted := alSet_sorted _ _ _ h.files_sorted
    readers_keys := by
      rw [hkeys1]
      exact h.readers_keys
    files_wf := by
      intro p hp
      rcases alSet_mem _ _ _ p hp with he | hm
      · obtain ⟨es, hes0⟩ := h.files_wf (s.current_generation, c) (alFind?_mem _ _ _ hc)
        have hes : c = encodeAll es := hes0
        refine ⟨es ++ [.remove k], ?_⟩
        rw [he, encodeAll_append, encodeAll_singleton, ← hes]
      · exact h.files_wf p hm
    keys_le := by
      intro p hp
      rcases alSet_mem _ _ _ p hp with he | hm
      · rw [he]
      · exact h.keys_le p hm
    cur_file := by
      refine ⟨c ++ encodeEntry (.remove k), alFind?_alSet_self _ _ _, ?_⟩
      rw [List.length_append, hw]
    index_sorted := idxErase_sorted _ _ h.index_sorted
    index_none := by
      intro x
      by_cases hx : x = k
      · subst hx
        rw [idxErase_find?_self _ _ h.index_sorted]
        simp [mupd]
      · rw [idxErase_find?_ne _ _ _ hx]
        have := h.index_none x
        simpa [mupd, hx] using this
    index_some := by
      intro x cp' hcp
      by_cases hx : x = k
      · subst hx
        rw [idxErase_find?_self _ _ h.index_sorted] at hcp
        exact Option.noConfusion hcp
      · rw [idxErase_find?_ne _ _ _ hx] at hcp
        obtain ⟨v', hv', hcpr⟩ := h.index_some x cp' hcp
        refine ⟨v', by simpa [mupd, hx] using hv', ?_⟩
        exact cpReads_preserved _ _ _ _ hc _ _ hcpr
    replay := by
      have hr := replay_after_append s m h (.remove k) c hc
      have hsnd : (idxErase s.index k).2 = some cp := by
        rw [idxErase_snd, hf]
      simp only [replayList, hsnd, oldLenOf] at hr
      exact hr }

/-! ## `open` restores the invariant -/

theorem alSet_all_lt {α : Type} (l : List (Nat × α)) (g : Nat) (v : α)
    (h : ∀ x ∈ l.map Prod.fst, g < x) : alSet l g v = (g, v) :: l := by
  cases l with
  | nil => rfl
  | cons p rest =>
    obtain ⟨k, b⟩ := p
    exact alSet_cons_lt (h k (by simp))

theorem alSet_all_gt {α : Type} (l : List (Nat × α)) (g : Nat) (v : α)
    (h : ∀ x ∈ l.map Prod.fst, x < g) : alSet l g v = l ++ [(g, v)] := by
  induction l with
  | nil => rfl
  | cons p rest ih =>
    obtain ⟨k, b⟩ := p
    have hk : k < g := h k (by simp)
    rw [alSet_cons_gt (by omega) (by omega), List.cons_append]
    rw [ih (fun x hx => h x (by simp [hx]))]

theorem buildReaders_map_fst (d : List (Nat × List Char)) (gens : List Nat)
    (hall : ∀ g ∈ gens, (alFind? d g).isSome = true)
    (hs : gens.Pairwise (· < ·)) :
    (buildReaders d gens).map Prod.fst = gens := by
  induction gens with
  | nil => rfl
  | cons g gs ih =>
    rw [List.pairwise_cons] at hs
    obtain ⟨c, hc⟩ := Option.isSome_iff_exists.mp (hall g (List.mem_cons_self _ _))
    have hstep : buildReaders d (g :: gs) = alSet (buildReaders d gs) g c.length := by
      rw [buildReaders, hc]
    have hrec : (buildReaders d gs).map Prod.fst = gs :=
      ih (fun x hx => hall x (List.mem_cons_of_mem _ hx)) hs.2
    rw [hstep, alSet_all_lt _ _ _ (by rw [hrec]; exact hs.1)]
    simp [hrec]

theorem cpReads_alSet_other (files : List (Nat × List Char)) (g : Nat)
    (x : List Char) (cp : CommandPos) (e : LogEntry) (hne : cp.generation ≠ g)
    (h : cpReads files cp e) : cpReads (alSet files g x) cp e := by
  obtain ⟨content, hcontent, hle, hslice, hlen⟩ := h
  exact ⟨content, by rw [alFind?_alSet_ne _ _ _ _ hne]; exact hcontent, hle, hslice, hlen⟩

theorem load_nil (g : Nat) (idx : Index) : load g [] idx = .ok (idx, 0) := rfl

theorem open_of_Inv (s : KvStore) (m : String → Option String) (h : Inv s m) :
    openStore s.files =
      .ok { files := alSet s.files (s.current_generation + 1) [],
            readers := alSet (buildReaders s.files (s.files.map Prod.fst))
              (s.current_generation + 1) 0,
            writerPos := 0,
            current_generation := s.current_generation + 1,
            index := s.index,
            uncompacted := s.uncompacted } := by
  have hsorted : (s.files.map Prod.fst).Sorted (· ≤ ·) :=
    ((alSorted_iff_keys s.files).mp h.files_sorted).imp (fun hab => Nat.le_of_lt hab)
  have hgens : List.insertionSort (· ≤ ·) (s.files.map Prod.fst) = s.files.map Prod.fst :=
    List.Sorted.insertionSort_eq hsorted
  have hnotin : (alFind? s.files (s.current_generation + 1)).isSome = false := by
    cases hfind : alFind? s.files (s.current_generation + 1) with
    | none => rfl
    | some c =>
      have := h.keys_le _ (alFind?_mem _ _ _ hfind)
      omega
  rw [openStore, hgens, h.replay, h.keys_getLast]
  simp only [Option.getD_some, new_log_file, hnotin, Bool.false_eq_true, if_false]

theorem open_Inv (s : KvStore) (m : String → Option String) (h : Inv s m) :
    ∃ s', openStore s.files = .ok s' ∧ s'.index = s.index ∧ Inv s' m := by
  refine ⟨_, open_of_Inv s m h, rfl, ?_⟩
  have hkeysk : ∀ x ∈ s.files.map Prod.fst, x < s.current_generation + 1 := by
    intro x hx
    rcases List.mem_map.mp hx with ⟨p, hp, hpx⟩
    have := h.keys_le p hp
    omega
  have hfiles' : alSet s.files (s.current_generation + 1) [] =
      s.files ++ [(s.current_generation + 1, [])] :=
    alSet_all_gt _ _ _ hkeysk
  have hall : ∀ g ∈ s.files.map Prod.fst, (alFind? s.files g).isSome = true := by
    intro g hg
    rw [alFind?_isSome_iff_mem]
    exact hg
  have hbr : (buildReaders s.files (s.files.map Prod.fst)).map Prod.fst =
      s.files.map Prod.fst :=
    buildReaders_map_fst _ _ hall ((alSorted_iff_keys s.files).mp h.files_sorted)
  have hkeys' : (alSet s.files (s.current_generation + 1) []).map Prod.fst =
      s.files.map Prod.fst ++ [s.current_generation + 1] := by
    rw [hfiles']
    simp
  exact {
    files_sorted := alSet_sorted _ _ _ h.files_sorted
    readers_keys :=
      alSet_map_fst_congr (buildReaders s.files (s.files.map Prod.fst)) s.files hbr
        (s.current_generation + 1) 0 []
    files_wf := by
      intro p hp
      rcases alSet_mem _ _ _ p hp with he | hm
      · exact ⟨[], by rw [he]; rfl⟩
      · exact h.files_wf p hm
    keys_le := by
      intro p hp
      show p.1 ≤ s.current_generation + 1
      rcases alSet_mem _ _ _ p hp with he | hm
      · rw [he]
      · have := h.keys_le p hm
        omega
    cur_file := ⟨[], alFind?_alSet_self _ _ _, rfl⟩
    index_sorted := h.index_sorted
    index_none := h.index_none
    index_some := by
      intro x cp hcp
      obtain ⟨v, hv, hcpr⟩ := h.index_some x cp hcp
      refine ⟨v, hv, ?_⟩
      apply cpReads_alSet_other
      · obtain ⟨content, hcontent, _, _, _⟩ := hcpr
        have := h.keys_le _ (alFind?_mem _ _ _ hcontent)
        omega
      · exact hcpr
    replay := by
      rw [hkeys']
      have hcongr : loadGens (alSet s.files (s.current_generation + 1) [])
          (s.files.map Prod.fst) [] 0 =
          loadGens s.files (s.files.map Prod.fst) [] 0 := by
        apply loadGens_congr
        intro g hg
        have : g ≠ s.current_generation + 1 := by
          have := hkeysk g hg
          omega
        exact alFind?_alSet_ne _ _ _ _ this
      rw [loadGens_append_ok _ _ _ _ _ _ (hcongr.trans h.replay)]
      rw [loadGens_cons_ok _ _ _ _ _ [] (s.index, 0)
        (alFind?_alSet_self _ _ _) (load_nil _ _)]
      rw [loadGens]
      simp }

/-! ## Compaction: supporting lemmas -/

theorem idxSorted_iff_keys (idx : Index) :
    idxSorted idx ↔ (idx.map Prod.fst).Pairwise (fun a b => keyLt a b = true) := by
  rw [idxSorted, List.pairwise_map]

theorem idxFind?_of_mem (idx : Index) (k : String) (cp : CommandPos)
    (hs : idxSorted idx) (hmem : (k, cp) ∈ idx) : idxFind? idx k = some cp := by
  induction idx with
  | nil => simp at hmem
  | cons p rest ih =>
    obtain ⟨kh, vh⟩ := p
    rw [idxSorted, List.pairwise_cons] at hs
    rcases List.mem_cons.mp hmem with he | hm
    · have hk : k = kh := congrArg Prod.fst he
      have hv : cp = vh := congrArg Prod.snd he
      subst hk
      subst hv
      simp [idxFind?]
    · have hne : ¬ k = kh := by
        intro hk
        have := hs.1 (k, cp) hm
        rw [hk, keyLt_irrefl] at this
        exact Bool.false_ne_true this
      have hstep : idxFind? ((kh, vh) :: rest) k = idxFind? rest k := by
        simp [idxFind?, hne]
      rw [hstep]
      exact ih hs.2 hm

/-- New positions of the live entries after compaction: each key keeps its
place, pointed at the compaction generation with offsets accumulated in
iteration order. -/
def reposition (cgen : Nat) (vals : String → String) : Index → Nat → Index
  | [], _ => []
  | (k, _) :: rest, pos =>
    (k, ⟨cgen, pos, (encodeEntry (.set k (vals k))).length⟩) ::
      reposition cgen vals rest (pos + (encodeEntry (.set k (vals k))).length)

theorem reposition_map_fst (cgen : Nat) (vals : String → String) :
    ∀ (entries : Index) (pos : Nat),
    (reposition cgen vals entries pos).map Prod.fst = entries.map Prod.fst := by
  intro entries
  induction entries with
  | nil => intro pos; rfl
  | cons p rest ih =>
    intro pos
    obtain ⟨k, cp⟩ := p
    rw [reposition]
    simp [ih]

theorem reposition_find?_isSome (cgen : Nat) (vals : String → String) :
    ∀ (entries : Index) (pos : Nat) (x : String),
    (idxFind? (reposition cgen vals entries pos) x).isSome =
      (idxFind? entries x).isSome := by
  intro entries
  induction entries with
  | nil => intro pos x; rfl
  | cons p rest ih =>
    intro pos x
    obtain ⟨k, cp⟩ := p
    rw [reposition, idxFind?.eq_def, idxFind?.eq_def]
    by_cases hx : x = k
    · simp [hx]
    · simp [hx, ih]

theorem reposition_reads (cgen : Nat) (vals : String → String)
    (files2 : List (Nat × List Char)) :
    ∀ (entries : Index) (pre post : List Char),
    alFind? files2 cgen =
      some (pre ++ encodeAll (entries.map (fun p => LogEntry.set p.1 (vals p.1))) ++ post) →
    ∀ (x : String) (cp' : CommandPos),
    idxFind? (reposition cgen vals entries pre.length) x = some cp' →
    cpReads files2 cp' (.set x (vals x)) := by
  intro entries
  induction entries with
  | nil =>
    intro pre post hfull x cp' hcp
    simp [reposition, idxFind?] at hcp
  | cons p rest ih =>
    intro pre post hfull x cp' hcp
    obtain ⟨k, cp⟩ := p
    rw [List.map_cons, encodeAll_cons] at hfull
    rw [reposition, idxFind?.eq_def] at hcp
    by_cases hx : x = k
    · simp only [hx, if_pos rfl] at hcp
      have hcp' := (Option.some_inj.mp hcp).symm
      subst hx
      rw [hcp']
      refine ⟨_, hfull, ?_, ?_, rfl⟩
      · simp only [List.length_append]
        have := List.length_append
            (encodeEntry (LogEntry.set x (vals x)))
            (encodeAll (rest.map (fun p => LogEntry.set p.1 (vals p.1))))
        omega
      · show ((pre ++ (encodeEntry (.set x (vals x)) ++
            encodeAll (rest.map (fun p => LogEntry.set p.1 (vals p.1)))) ++ post).drop
              pre.length).take (encodeEntry (.set x (vals x))).length =
          encodeEntry (.set x (vals x))
        rw [List.append_assoc, List.drop_left, List.append_assoc, List.take_left]
    · simp only [if_neg hx] at hcp
      have hfull' : alFind? files2 cgen =
          some ((pre ++ encodeEntry (.set k (vals k))) ++
            encodeAll (rest.map (fun p => LogEntry.set p.1 (vals p.1))) ++ post) := by
        rw [hfull]
        simp [List.append_assoc]
      have hlen : (pre ++ encodeEntry (.set k (vals k))).length =
          pre.length + (encodeEntry (.set k (vals k))).length := List.length_append _ _
      have := ih (pre ++ encodeEntry (.set k (vals k))) post hfull' x cp'
      rw [hlen] at this
      exact this hcp

theorem idxInsert_append_gt (idx0 : Index) (k : String) (cp : CommandPos)
    (h : ∀ q ∈ idx0, keyLt q.1 k = true) :
    idxInsert idx0 k cp = (idx0 ++ [(k, cp)], none) := by
  induction idx0 with
  | nil => rfl
  | cons q rest ih =>
    obtain ⟨kh, vh⟩ := q
    have hlt : keyLt kh k = true := h (kh, vh) (List.mem_cons_self _ _)
    have h1 : keyLt k kh = false := keyLt_asymm _ _ hlt
    have h2 : k ≠ kh := by
      intro he
      rw [he, keyLt_irrefl] at hlt
      exact Bool.false_ne_true hlt
    rw [idxInsert_cons_gt h1 h2, ih (fun q hq => h q (List.mem_cons_of_mem _ hq))]
    rfl

theorem replayList_ascending (cgen : Nat) (vals : String → String) :
    ∀ (entries : Index) (pos : Nat) (idx0 : Index) (unc : Nat),
    idxSorted entries →
    (∀ p ∈ entries, ∀ q ∈ idx0, keyLt q.1 p.1 = true) →
    replayList cgen (entries.map (fun p => LogEntry.set p.1 (vals p.1))) pos idx0 unc =
      (idx0 ++ reposition cgen vals entries pos, unc) := by
  intro entries
  induction entries with
  | nil =>
    intro pos idx0 unc hsort hlo
    rw [List.map_nil, replayList, reposition, List.append_nil]
  | cons p rest ih =>
    intro pos idx0 unc hsort hlo
    obtain ⟨k, cp⟩ := p
    rw [idxSorted, List.pairwise_cons] at hsort
    rw [List.map_cons, replayList, reposition]
    have hins := idxInsert_append_gt idx0 k
      ⟨cgen, pos, (encodeEntry (.set k (vals k))).length⟩
      (fun q hq => hlo (k, cp) (List.mem_cons_self _ _) q hq)
    rw [hins]
    have hlo' : ∀ p' ∈ rest, ∀ q ∈ idx0 ++ [(k,
        (⟨cgen, pos, (encodeEntry (.set k (vals k))).length⟩ : CommandPos))],
        keyLt q.1 p'.1 = true := by
      intro p' hp' q hq
      rcases List.mem_append.mp hq with hq0 | hq1
      · exact hlo p' (List.mem_cons_of_mem _ hp') q hq0
      · rcases List.mem_singleton.mp hq1 with rfl
        exact hsort.1 p' hp'
    rw [ih (pos + (encodeEntry (.set k (vals k))).length) _ _ hsort.2 hlo']
    rw [List.append_assoc, List.singleton_append]
    simp [oldLenOf]

theorem compactLoop_spec (cgen : Nat) (files : List (Nat × List Char))
    (vals : String → String) :
    ∀ (entries : Index) (readers : List (Nat × Nat)) (new_pos : Nat),
    alSorted readers →
    (∀ p ∈ entries, cpReads files p.2 (.set p.1 (vals p.1))) →
    (∀ p ∈ entries, (alFind? readers p.2.generation).isSome = true) →
    ∃ readers',
      compactLoop cgen files readers entries new_pos =
        .ok (reposition cgen vals entries new_pos, readers',
          encodeAll (entries.map (fun p => LogEntry.set p.1 (vals p.1)))) ∧
      readers'.map Prod.fst = readers.map Prod.fst := by
  intro entries
  induction entries with
  | nil =>
    intro readers new_pos hrs hreads hsome
    exact ⟨readers, rfl, rfl⟩
  | cons p rest ih =>
    intro readers new_pos hrs hreads hsome
    obtain ⟨k, cp⟩ := p
    obtain ⟨content, hcontent, hle, hslice, hlen⟩ :=
      hreads (k, cp) (List.mem_cons_self _ _)
    obtain ⟨rpos, hrpos⟩ := Option.isSome_iff_exists.mp
      (hsome (k, cp) (List.mem_cons_self _ _))
    have hbl : ((content.drop cp.pos).take cp.len).length =
        (encodeEntry (.set k (vals k))).length := by
      rw [hslice]
    have hkeep : (alSet readers cp.generation
        (cp.pos + ((content.drop cp.pos).take cp.len).length)).map Prod.fst =
        readers.map Prod.fst := by
      apply alSet_map_fst_present _ _ _ hrs
      rw [← alFind?_isSome_iff_mem, hrpos]
      rfl
    obtain ⟨readers'', hloop, hkeys2⟩ := ih
      (alSet readers cp.generation (cp.pos + ((content.drop cp.pos).take cp.len).length))
      (new_pos + ((content.drop cp.pos).take cp.len).length)
      (alSet_sorted _ _ _ hrs)
      (fun q hq => hreads q (List.mem_cons_of_mem _ hq))
      (by
        intro q hq
        rw [alFind?_isSome_iff_mem, hkeep, ← alFind?_isSome_iff_mem]
        exact hsome q (List.mem_cons_of_mem _ hq))
    refine ⟨readers'', ?_, hkeys2.trans hkeep⟩
    have hrw : compactLoop cgen files readers ((k, cp) :: rest) new_pos =
        match compactLoop cgen files
          (alSet readers cp.generation
            (cp.pos + ((content.drop cp.pos).take cp.len).length)) rest
          (new_pos + ((content.drop cp.pos).take cp.len).length) with
        | .ok r => .ok ((k, (⟨cgen, new_pos,
            ((content.drop cp.pos).take cp.len).length⟩ : CommandPos)) :: r.1, r.2.1,
            (content.drop cp.pos).take cp.len ++ r.2.2)
        | .error e => .error e := by
      rw [compactLoop, hrpos, hcontent]
    rw [hrw, hloop]
    rw [List.map_cons, encodeAll_cons, reposition]
    rw [hbl, hslice]

/-- Iterated erasure, describing the effect of the stale-generation loop. -/
def eraseKeys {α : Type} : List (Nat × α) → List Nat → List (Nat × α)
  | l, [] => l
  | l, g :: gs => eraseKeys (alErase l g) gs

theorem removeStale_ok :
    ∀ (stale : List Nat) (readers : List (Nat × Nat)) (files : List (Nat × List Char)),
    (∀ g ∈ stale, (alFind? files g).isSome = true) →
    stale.Pairwise (· ≠ ·) →
    removeStale stale readers files = .ok (eraseKeys readers stale, eraseKeys files stale) := by
  intro stale
  induction stale with
  | nil => intro readers files hsome hnd; rfl
  | cons g gs ih =>
    intro readers files hsome hnd
    rw [List.pairwise_cons] at hnd
    rw [removeStale, if_pos (hsome g (List.mem_cons_self _ _))]
    rw [eraseKeys, eraseKeys]
    apply ih
    · intro x hx
      rw [alFind?_isSome_iff_mem, alErase_map_fst_congr files files rfl g,
        ← alFind?_isSome_iff_mem]
      rw [alErase_find?_ne _ _ _ (fun he => (hnd.1 x hx) he.symm)]
      exact hsome x (List.mem_cons_of_mem _ hx)
    · exact hnd.2

theorem eraseKeys_self_app {α : Type} :
    ∀ (l rest : List (Nat × α)), eraseKeys (l ++ rest) (l.map Prod.fst) = rest := by
  intro l
  induction l with
  | nil => intro rest; rfl
  | cons p l' ih =>
    intro rest
    obtain ⟨g, a⟩ := p
    rw [List.map_cons, List.cons_append, eraseKeys, alErase_cons_eq rfl]
    exact ih rest

theorem eraseKeys_map_fst_congr {α β : Type} :
    ∀ (gs : List Nat) (l₁ : List (Nat × α)) (l₂ : List (Nat × β)),
    l₁.map Prod.fst = l₂.map Prod.fst →
    (eraseKeys l₁ gs).map Prod.fst = (eraseKeys l₂ gs).map Prod.fst := by
  intro gs
  induction gs with
  | nil => intro l₁ l₂ h; exact h
  | cons g gs ih =>
    intro l₁ l₂ h
    rw [eraseKeys, eraseKeys]
    exact ih _ _ (alErase_map_fst_congr l₁ l₂ h g)

theorem alSet_app_two {α : Type} (l : List (Nat × α)) (g b : Nat) (y v : α)
    (hl : ∀ k ∈ l.map Prod.fst, k < g) (hb : g < b) :
    alSet (l ++ [(b, y)]) g v = l ++ [(g, v), (b, y)] := by
  induction l with
  | nil =>
    rw [List.nil_append, alSet_cons_lt hb, List.nil_append]
  | cons p rest ih =>
    obtain ⟨k, a⟩ := p
    have hk : k < g := hl k (by simp)
    rw [List.cons_append, alSet_cons_gt (by omega) (by omega), List.cons_append]
    rw [ih (fun x hx => hl x (by simp [hx]))]

theorem alSet_replace_two {α : Type} (l : List (Nat × α)) (g b : Nat) (x y v : α)
    (hl : ∀ k ∈ l.map Prod.fst, k < g) (_hb : g < b) :
    alSet (l ++ [(g, x), (b, y)]) g v = l ++ [(g, v), (b, y)] := by
  induction l with
  | nil =>
    rw [List.nil_append, alSet_cons_eq rfl, List.nil_append]
  | cons p rest ih =>
    obtain ⟨k, a⟩ := p
    have hk : k < g := hl k (by simp)
    rw [List.cons_append, alSet_cons_gt (by omega) (by omega), List.cons_append]
    rw [ih (fun xk hx => hl xk (by simp [hx]))]

theorem alFind?_append {α : Type} (l rest : List (Nat × α)) (key : Nat) :
    alFind? (l ++ rest) key =
      match alFind? l key with
      | some a => some a
      | none => alFind? rest key := by
  induction l with
  | nil => rfl
  | cons p l' ih =>
    obtain ⟨g, a⟩ := p
    rw [List.cons_append, alFind?.eq_def, alFind?.eq_def]
    by_cases hk : key = g
    · simp [hk]
    · simp [hk, ih]


/-! ## The compaction theorem -/

theorem compacted_Inv (m : String → Option String) (cgen cur' : Nat)
    (hlt : cgen < cur') (vals : String → String) (oldIndex : Index)
    (hsorted : idxSorted oldIndex)
    (hvals : ∀ x cp, idxFind? oldIndex x = some cp → ∃ v, m x = some v ∧ vals x = v)
    (hnone : ∀ x, idxFind? oldIndex x = none ↔ m x = none)
    (readers'' : List (Nat × Nat))
    (hrk : readers''.map Prod.fst = [cgen, cur']) :
    Inv { files := [(cgen, encodeAll (oldIndex.map (fun p => LogEntry.set p.1 (vals p.1)))),
                    (cur', [])],
          readers := readers'', writerPos := 0, current_generation := cur',
          index := reposition cgen vals oldIndex 0, uncompacted := 0 } m := by
  have hne : cur' ≠ cgen := by omega
  have hfindc : alFind?
      ([(cgen, encodeAll (oldIndex.map (fun p => LogEntry.set p.1 (vals p.1)))),
        (cur', [])] : List (Nat × List Char)) cgen =
      some (encodeAll (oldIndex.map (fun p => LogEntry.set p.1 (vals p.1)))) := by
    simp [alFind?]
  have hfindcur : alFind?
      ([(cgen, encodeAll (oldIndex.map (fun p => LogEntry.set p.1 (vals p.1)))),
        (cur', [])] : List (Nat × List Char)) cur' = some [] := by
    simp [alFind?, hne]
  exact {
    files_sorted := by
      rw [alSorted, List.pairwise_cons]
      refine ⟨?_, by simp⟩
      intro p hp
      rcases List.mem_singleton.mp hp with rfl
      show cgen < cur'
      omega
    readers_keys := by
      rw [hrk]
      simp
    files_wf := by
      intro p hp
      rcases List.mem_cons.mp hp with he | hm
      · refine ⟨oldIndex.map (fun p => LogEntry.set p.1 (vals p.1)), ?_⟩
        rw [he]
      · rcases List.mem_singleton.mp hm with rfl
        exact ⟨[], rfl⟩
    keys_le := by
      intro p hp
      show p.1 ≤ cur'
      rcases List.mem_cons.mp hp with he | hm
      · rw [he]
        show cgen ≤ cur'
        omega
      · rcases List.mem_singleton.mp hm with rfl
        show cur' ≤ cur'
        omega
    cur_file := ⟨[], hfindcur, rfl⟩
    index_sorted := by
      show idxSorted (reposition cgen vals oldIndex 0)
      rw [idxSorted_iff_keys]
      rw [show (reposition cgen vals oldIndex 0).map Prod.fst = oldIndex.map Prod.fst
        from reposition_map_fst cgen vals oldIndex 0]
      rw [← idxSorted_iff_keys]
      exact hsorted
    index_none := by
      intro x
      show idxFind? (reposition cgen vals oldIndex 0) x = none ↔ m x = none
      rw [← hnone x]
      have hiso := reposition_find?_isSome cgen vals oldIndex 0 x
      constructor
      · intro hx
        rw [hx] at hiso
        cases hfx : idxFind? oldIndex x with
        | none => rfl
        | some c =>
          rw [hfx] at hiso
          simp at hiso
      · intro hx
        rw [hx] at hiso
        cases hfx : idxFind? (reposition cgen vals oldIndex 0) x with
        | none => rfl
        | some c =>
          rw [hfx] at hiso
          simp at hiso
    index_some := by
      intro x cp' hcp
      have hcp' : idxFind? (reposition cgen vals oldIndex 0) x = some cp' := hcp
      have hsome0 : (idxFind? oldIndex x).isSome = true := by
        have hiso := reposition_find?_isSome cgen vals oldIndex 0 x
        rw [← hiso, hcp']
        rfl
      obtain ⟨cp0, hcp0⟩ := Option.isSome_iff_exists.mp hsome0
      obtain ⟨v, hv, hvx⟩ := hvals x cp0 hcp0
      refine ⟨v, hv, ?_⟩
      rw [← hvx]
      apply reposition_reads cgen vals _ oldIndex ([] : List Char) ([] : List Char)
      · rw [hfindc]
        simp
      · exact hcp'
    replay := by
      show loadGens _ _ [] 0 = .ok (reposition cgen vals oldIndex 0, 0)
      have hload1 : load cgen
          (encodeAll (oldIndex.map (fun p => LogEntry.set p.1 (vals p.1)))) ([] : Index) =
          .ok (reposition cgen vals oldIndex 0, 0) := by
        rw [load_concat]
        rw [replayList_ascending cgen vals oldIndex 0 [] 0 hsorted
          (fun p hp q hq => absurd hq (List.not_mem_nil q))]
        rw [List.nil_append]
      rw [List.map_cons, List.map_cons, List.map_nil]
      rw [loadGens_cons_ok _ _ _ _ _ _ _ hfindc hload1]
      rw [loadGens_cons_ok _ _ _ _ _ [] (reposition cgen vals oldIndex 0, 0)
        hfindcur (load_nil _ _)]
      rw [loadGens]
      simp }

theorem compact_spec (s : KvStore) (m : String → Option String) (h : Inv s m) :
    ∃ s', KvStore.compact s = .ok s' ∧ Inv s' m ∧
      s'.uncompacted = 0 ∧
      s'.current_generation = s.current_generation + 2 ∧
      s'.files.map Prod.fst = [s.current_generation + 1, s.current_generation + 2] ∧
      s'.readers.map Prod.fst = [s.current_generation + 1, s.current_generation + 2] := by
  set cgen := s.current_generation + 1 with hcgen
  set cur' := s.current_generation + 2 with hcur'
  set vals : String → String := fun k => (m k).getD "" with hvalsdef
  have hnotin : ∀ g, s.current_generation < g → alFind? s.files g = none := by
    intro g hg
    cases hfind : alFind? s.files g with
    | none => rfl
    | some c =>
      have := h.keys_le _ (alFind?_mem _ _ _ hfind)
      omega
  have hkeyslt : ∀ x ∈ s.files.map Prod.fst, x < cgen := by
    intro x hx
    rcases List.mem_map.mp hx with ⟨p, hp, hpx⟩
    have := h.keys_le p hp
    rw [hcgen]
    omega
  have hfiles1 : alSet s.files cur' [] = s.files ++ [(cur', [])] :=
    alSet_all_gt _ _ _ (fun x hx => by
      have := hkeyslt x hx
      rw [hcur']
      rw [hcgen] at this
      omega)
  have hfr1 : new_log_file s.files s.readers cur' =
      (s.files ++ [(cur', [])], alSet s.readers cur' 0) := by
    rw [new_log_file, hnotin cur' (by rw [hcur']; omega), hfiles1]
    simp
  have hfind2 : alFind? (s.files ++ [(cur', [])]) cgen = none := by
    rw [alFind?_append, hnotin cgen (by rw [hcgen]; omega)]
    have hne : cgen ≠ cur' := by
      rw [hcgen, hcur']
      omega
    simp [alFind?, hne]
  have hfiles2 : alSet (s.files ++ [(cur', [])]) cgen [] =
      s.files ++ [(cgen, []), (cur', [])] :=
    alSet_app_two _ _ _ _ _ hkeyslt (by rw [hcgen, hcur']; omega)
  have hfr2 : new_log_file (s.files ++ [(cur', [])]) (alSet s.readers cur' 0) cgen =
      (s.files ++ [(cgen, []), (cur', [])],
       alSet (alSet s.readers cur' 0) cgen 0) := by
    rw [new_log_file, hfind2, hfiles2]
    simp
  have hfiles2sorted : alSorted (s.files ++ [(cgen, []), (cur', [])]) := by
    rw [← hfiles2, ← hfiles1]
    exact alSet_sorted _ _ _ (alSet_sorted _ _ _ h.files_sorted)
  have hfiles2keys : (s.files ++ [(cgen, []), (cur', [])]).map Prod.fst =
      s.files.map Prod.fst ++ [cgen, cur'] := by
    simp
  have hreaders2keys : (alSet (alSet s.readers cur' 0) cgen 0).map Prod.fst =
      s.files.map Prod.fst ++ [cgen, cur'] := by
    rw [← hfiles2keys, ← hfiles2, ← hfiles1]
    exact alSet_map_fst_congr _ _
      (alSet_map_fst_congr _ _ h.readers_keys cur' 0 []) cgen 0 []
  have hreaders2sorted : alSorted (alSet (alSet s.readers cur' 0) cgen 0) := by
    rw [alSorted_iff_keys, hreaders2keys, ← hfiles2keys, ← alSorted_iff_keys]
    exact hfiles2sorted
  have hreads : ∀ p ∈ s.index,
      cpReads (s.files ++ [(cgen, []), (cur', [])]) p.2 (.set p.1 (vals p.1)) := by
    intro p hp
    have hfind := idxFind?_of_mem s.index p.1 p.2 h.index_sorted hp
    obtain ⟨v, hv, hcpr⟩ := h.index_some p.1 p.2 hfind
    have hvv : vals p.1 = v := by
      rw [hvalsdef]
      show (m p.1).getD "" = v
      rw [hv]
      rfl
    rw [hvv]
    have hgle : p.2.generation ≤ s.current_generation := by
      obtain ⟨content, hcontent, _, _, _⟩ := hcpr
      exact h.keys_le _ (alFind?_mem _ _ _ hcontent)
    rw [← hfiles2, ← hfiles1]
    apply cpReads_alSet_other _ _ _ _ _ (by rw [hcgen]; omega)
    exact cpReads_alSet_other _ _ _ _ _ (by rw [hcur']; omega) hcpr
  have hsome : ∀ p ∈ s.index,
      (alFind? (alSet (alSet s.readers cur' 0) cgen 0) p.2.generation).isSome = true := by
    intro p hp
    have hfind := idxFind?_of_mem s.index p.1 p.2 h.index_sorted hp
    obtain ⟨v, hv, hcpr⟩ := h.index_some p.1 p.2 hfind
    obtain ⟨content, hcontent, _, _, _⟩ := hcpr
    rw [alFind?_isSome_iff_mem, hreaders2keys]
    apply List.mem_append_left
    rw [← alFind?_isSome_iff_mem, hcontent]
    rfl
  obtain ⟨readersStar, hloop, hkeysStar⟩ :=
    compactLoop_spec cgen (s.files ++ [(cgen, []), (cur', [])]) vals s.index
      (alSet (alSet s.readers cur' 0) cgen 0) 0
      hreaders2sorted hreads hsome
  have hfiles3 : alSet (s.files ++ [(cgen, []), (cur', [])]) cgen
      (encodeAll (s.index.map (fun p => LogEntry.set p.1 (vals p.1)))) =
      s.files ++ [(cgen, encodeAll (s.index.map (fun p => LogEntry.set p.1 (vals p.1)))),
        (cur', [])] :=
    alSet_replace_two _ _ _ _ _ _ hkeyslt (by rw [hcgen, hcur']; omega)
  have hstale : (readersStar.map Prod.fst).filter (fun g => decide (g < cgen)) =
      s.files.map Prod.fst := by
    rw [hkeysStar, hreaders2keys, List.filter_append]
    have h1 : (s.files.map Prod.fst).filter (fun g => decide (g < cgen)) =
        s.files.map Prod.fst :=
      List.filter_eq_self.mpr (fun x hx => by
        have := hkeyslt x hx
        simp [this])
    have hc1 : ¬ cgen < cgen := by omega
    have hc2 : ¬ cur' < cgen := by rw [hcgen, hcur']; omega
    have h2 : ([cgen, cur'] : List Nat).filter (fun g => decide (g < cgen)) = [] := by
      simp [List.filter, hc1, hc2]
    rw [h1, h2, List.append_nil]
  have hrs : removeStale (s.files.map Prod.fst) readersStar
      (s.files ++ [(cgen, encodeAll (s.index.map (fun p => LogEntry.set p.1 (vals p.1)))),
        (cur', [])]) =
      .ok (eraseKeys readersStar (s.files.map Prod.fst),
           eraseKeys (s.files ++
             [(cgen, encodeAll (s.index.map (fun p => LogEntry.set p.1 (vals p.1)))),
              (cur', [])]) (s.files.map Prod.fst)) := by
    apply removeStale_ok
    · intro g hg
      rw [alFind?_isSome_iff_mem, List.map_append]
      apply List.mem_append_left
      exact hg
    · exact ((alSorted_iff_keys s.files).mp h.files_sorted).imp (fun hab => by omega)
  have hefiles : eraseKeys (s.files ++
      [(cgen, encodeAll (s.index.map (fun p => LogEntry.set p.1 (vals p.1)))),
       (cur', [])]) (s.files.map Prod.fst) =
      [(cgen, encodeAll (s.index.map (fun p => LogEntry.set p.1 (vals p.1)))), (cur', [])] :=
    eraseKeys_self_app _ _
  have hereaders : (eraseKeys readersStar (s.files.map Prod.fst)).map Prod.fst =
      [cgen, cur'] := by
    have hsame : readersStar.map Prod.fst =
        (s.files ++ [(cgen, encodeAll (s.index.map (fun p => LogEntry.set p.1 (vals p.1)))),
          (cur', [])]).map Prod.fst := by
      rw [hkeysStar, hreaders2keys]
      simp
    rw [eraseKeys_map_fst_congr (s.files.map Prod.fst) readersStar _ hsame, hefiles]
    simp
  have hcompact : KvStore.compact s =
      .ok { files := [(cgen, encodeAll (s.index.map (fun p => LogEntry.set p.1 (vals p.1)))),
              (cur', [])],
            readers := eraseKeys readersStar (s.files.map Prod.fst),
            writerPos := 0,
            current_generation := cur',
            index := reposition cgen vals s.index 0,
            uncompacted := 0 } := by
    rw [KvStore.compact]
    simp only [← hcgen, ← hcur', hfr1, hfr2, hloop, hstale, hfiles3, hrs, hefiles]
  refine ⟨_, hcompact, ?_, rfl, rfl, by simp, by rw [hereaders]⟩
  apply compacted_Inv m cgen cur' (by rw [hcgen, hcur']; omega) vals s.index
    h.index_sorted
  · intro x cp hcp
    obtain ⟨v, hv, _⟩ := h.index_some x cp hcp
    refine ⟨v, hv, ?_⟩
    rw [hvalsdef]
    show (m x).getD "" = v
    rw [hv]
    rfl
  · exact h.index_none
  · exact hereaders

/-! ## `set`, including its compaction trigger -/

theorem set_spec (s : KvStore) (m : String → Option String) (k v : String)
    (h : Inv s m) :
    ∃ s', KvStore.set s k v = .ok s' ∧ Inv s' (mupd m k (some v)) := by
  have hinv1 := setCore_Inv s m k v h
  by_cases hthr : (s.setCore k v).uncompacted > COMPACTION_THRESHOLD
  · obtain ⟨s', hok, hinv', _, _, _, _⟩ := compact_spec (s.setCore k v) _ hinv1
    refine ⟨s', ?_, hinv'⟩
    rw [KvStore.set, if_pos hthr]
    exact hok
  · refine ⟨s.setCore k v, ?_, hinv1⟩
    rw [KvStore.set, if_neg hthr]

/-! ## Reachable stores -/

/-- The store produced by `open` on an empty directory. -/
def openedEmpty : KvStore :=
  { files := [(1, [])], readers := [(1, 0)], writerPos := 0,
    current_generation := 1, index := [], uncompacted := 0 }

theorem openStore_nil : openStore [] = .ok openedEmpty := rfl

theorem Inv_openedEmpty : Inv openedEmpty (fun _ => none) := by
  exact {
    files_sorted := by simp [openedEmpty, alSorted]
    readers_keys := rfl
    files_wf := by
      intro p hp
      rcases List.mem_singleton.mp hp with rfl
      exact ⟨[], rfl⟩
    keys_le := by
      intro p hp
      rcases List.mem_singleton.mp hp with rfl
      exact Nat.le_refl 1
    cur_file := ⟨[], rfl, rfl⟩
    index_sorted := List.Pairwise.nil
    index_none := by
      intro k
      simp [openedEmpty, idxFind?]
    index_some := by
      intro k cp hcp
      simp [openedEmpty, idxFind?] at hcp
    replay := rfl }

theorem remove_error_state (s : KvStore) (k : String) (e : Failure)
    (he : (KvStore.remove s k).1 = .error e) : (KvStore.remove s k).2 = s := by
  cases hf : idxFind? s.index k with
  | none => rw [remove_not_found s k hf]
  | some cp =>
    exfalso
    have hsnd : (idxErase s.index k).2 = some cp := by
      rw [idxErase_snd, hf]
    have : (KvStore.remove s k).1 = .ok () := by
      simp only [KvStore.remove, hf, Option.isSome_some, if_pos, hsnd]
    rw [this] at he
    exact Except.noConfusion he

/-- Stores reachable by `open` on an empty directory followed by any
sequence of engine operations, together with the abstract key/value map
they represent. -/
inductive Reach : KvStore → (String → Option String) → Prop where
  | openEmpty {s : KvStore} : openStore [] = .ok s → Reach s (fun _ => none)
  | stepSet {s : KvStore} {m : String → Option String} {k v : String} {s' : KvStore} :
      Reach s m → KvStore.set s k v = .ok s' → Reach s' (mupd m k (some v))
  | stepRemoveOk {s : KvStore} {m : String → Option String} {k : String} {s' : KvStore} :
      Reach s m → KvStore.remove s k = (.ok (), s') → Reach s' (mupd m k none)
  | stepRemoveErr {s : KvStore} {m : String → Option String} {k : String} {e : Failure} :
      Reach s m → (KvStore.remove s k).1 = .error e → Reach ((KvStore.remove s k).2) m
  | stepGet {s : KvStore} {m : String → Option String} {k : String} :
      Reach s m → Reach ((KvStore.get s k).2) m
  | stepCompact {s : KvStore} {m : String → Option String} {s' : KvStore} :
      Reach s m → KvStore.compact s = .ok s' → Reach s' m

/-- Every reachable store satisfies the invariant. -/
theorem inv_of_reach (s : KvStore) (m : String → Option String)
    (h : Reach s m) : Inv s m := by
  induction h with
  | openEmpty hopen =>
    have hs := Except.ok.inj ((openStore_nil).symm.trans hopen)
    rw [← hs]
    exact Inv_openedEmpty
  | stepSet hr hset ih =>
    obtain ⟨s'', hok, hinv⟩ := set_spec _ _ _ _ ih
    rw [← Except.ok.inj (hok.symm.trans hset)]
    exact hinv
  | stepRemoveOk hr hrem ih =>
    rename_i s₀ m₀ k₀ s₀'
    cases hf : idxFind? s₀.index k₀ with
    | none =>
      rw [remove_not_found s₀ k₀ hf] at hrem
      exact absurd (congrArg Prod.fst hrem) (by simp)
    | some cp =>
      have hinv := remove_found_Inv s₀ m₀ k₀ cp ih hf
      rw [hrem] at hinv
      exact hinv
  | stepRemoveErr hr herr ih =>
    rw [remove_error_state _ _ _ herr]
    exact ih
  | stepGet hr ih =>
    exact get_Inv _ _ _ ih
  | stepCompact hr hcomp ih =>
    obtain ⟨s'', hok, hinv, _, _, _, _⟩ := compact_spec _ _ ih
    rw [← Except.ok.inj (hok.symm.trans hcomp)]
    exact hinv

/-! ## The segment path catalog (`sorted_generation_list`)

`sorted_generation_list` scans a directory and keeps the generation numbers
of the log files.  A directory entry is modelled by its file name and
whether it is a regular file; entry-level I/O errors are skipped by the
source's `flat_map` over `Result` and therefore do not appear. -/

/-- One directory entry as observed by `fs::read_dir`. -/
structure DirEntry where
  name : String
  isFile : Bool
deriving DecidableEq

/-- Splits a character list at its last dot: `some (before, after)`. -/
def splitLastDot : List Char → Option (List Char × List Char)
  | [] => none
  | c :: rest =>
    match splitLastDot rest with
    | some (b, a) => some (c :: b, a)
    | none => if c = '.' then some ([], rest) else none

/-- `Path::extension`: the part after the last dot of the file name, and
`None` when there is no dot or when the only dot is the leading one (hidden
files such as `.log` have no extension). -/
def rustExtension (name : String) : Option String :=
  match splitLastDot name.data with
  | some (before, after) => if before = [] then none else some (String.mk after)
  | none => none

/-- `Path::file_stem`: the part before the last dot, or the whole name when
there is no extension. -/
def rustFileStem (name : String) : String :=
  match splitLastDot name.data with
  | some (before, _) => if before = [] then name else String.mk before
  | none => name

/-- Helper for `trim_end_matches(".log")` on the reversed character list:
strips every leading occurrence of the reversal of `".log"`. -/
def stripLogRev : List Char → List Char
  | 'g' :: 'o' :: 'l' :: '.' :: rest => stripLogRev rest
  | l => l

/-- `str::trim_end_matches(".log")`: repeatedly removes the suffix `".log"`. -/
def trimEndLog (s : String) : String :=
  String.mk (stripLogRev s.data.reverse).reverse

/-- Decimal digit test for `u64::from_str`. -/
def isAsciiDigit (c : Char) : Bool := 48 ≤ c.toNat && c.toNat ≤ 57

/-- Accumulates the value of a decimal digit string. -/
def digitsVal : List Char → Nat → Option Nat
  | [], acc => some acc
  | c :: rest, acc =>
    if isAsciiDigit c then digitsVal rest (acc * 10 + (c.toNat - 48)) else none

/-- `str::parse::<u64>`: an optional leading `+`, then at least one decimal
digit, rejecting values outside `u64` range. -/
def parseU64 (s : String) : Option Nat :=
  let cs := match s.data with
    | '+' :: rest => rest
    | cs => cs
  match cs with
  | [] => none
  | _ :: _ =>
    match digitsVal cs 0 with
    | some n => if n < 2 ^ 64 then some n else none
    | none => none

/-- The generation number contributed by one directory entry: regular
files whose extension is the log suffix, parsing the name with all `".log"`
suffixes stripped (`trim_end_matches`). -/
def genOf (e : DirEntry) : Option Nat :=
  if e.isFile = true ∧ rustExtension e.name = some "log"
  then parseU64 (trimEndLog e.name) else none

/-- `sorted_generation_list` from `src/kv.rs`: collect and sort ascending. -/
def sorted_generation_list (entries : List DirEntry) : List Nat :=
  List.insertionSort (· ≤ ·) (entries.filterMap genOf)

/-- Reading of the claim's words: parse the numeric *stem* of the file
(the name minus its extension), rather than the name with all `".log"`
suffixes stripped. -/
def sortedGenerationListStem (entries : List DirEntry) : List Nat :=
  List.insertionSort (· ≤ ·) (entries.filterMap (fun e =>
    if e.isFile = true ∧ rustExtension e.name = some "log"
    then parseU64 (rustFileStem e.name) else none))

/-! ## Remaining facts about `remove` used by the claims -/

theorem remove_fst_found (s : KvStore) (k : String) (cp : CommandPos)
    (hf : idxFind? s.index k = some cp) : (KvStore.remove s k).1 = .ok () := by
  have hsnd : (idxErase s.index k).2 = some cp := by
    rw [idxErase_snd, hf]
  simp only [KvStore.remove, hf, Option.isSome_some, if_pos, hsnd]

theorem remove_frame (s : KvStore) (k : String) :
    (KvStore.remove s k).2.readers = s.readers ∧
    (KvStore.remove s k).2.current_generation = s.current_generation := by
  cases hf : idxFind? s.index k with
  | none =>
    rw [remove_not_found s k hf]
    exact ⟨rfl, rfl⟩
  | some cp =>
    have hsnd : (idxErase s.index k).2 = some cp := by
      rw [idxErase_snd, hf]
    simp [KvStore.remove, hf, hsnd]

/-! ## The claims -/

/-- C1: for every store reachable from `open` on an empty directory by
successful engine operations, reopening the directory succeeds and the
reopened store answers every `get` exactly as the in-memory store did
just before close (closing is a no-op: every mutation is flushed before
returning). -/
theorem persistence_across_reopen (s : KvStore) (m : String → Option String)
    (hr : Reach s m) :
    ∃ s', openStore s.files = .ok s' ∧
      ∀ k, (KvStore.get s' k).1 = (KvStore.get s k).1 := by
  have hinv := inv_of_reach s m hr
  obtain ⟨s', hopen, _, hinv'⟩ := open_Inv s m hinv
  exact ⟨s', hopen, fun k => by rw [get_fst s' m k hinv', get_fst s m k hinv]⟩

/-- Witness for C1 at the store produced by `open` on an empty directory. -/
theorem persistence_across_reopen_witness :
    ∃ s', openStore openedEmpty.files = .ok s' ∧
      ∀ k, (KvStore.get s' k).1 = (KvStore.get openedEmpty k).1 :=
  persistence_across_reopen openedEmpty (fun _ => none) (Reach.openEmpty rfl)

/-- C2: on any reachable store, a successful `set(k, v)` followed
immediately by `get(k)` returns `Some v`. -/
theorem set_get_roundtrip (s s' : KvStore) (m : String → Option String)
    (k v : String) (hr : Reach s m) (hset : KvStore.set s k v = .ok s') :
    (KvStore.get s' k).1 = .ok (some v) := by
  have hinv := inv_of_reach s m hr
  obtain ⟨s'', hok, hinv'⟩ := set_spec s m k v hinv
  rw [← Except.ok.inj (hok.symm.trans hset)]
  rw [get_fst s'' _ k hinv']
  simp [mupd]

/-- Witness for C2: set then get on the freshly opened store. -/
theorem set_get_roundtrip_witness :
    (KvStore.get (KvStore.setCore openedEmpty "a" "b") "a").1 = .ok (some "b") :=
  set_get_roundtrip openedEmpty (KvStore.setCore openedEmpty "a" "b")
    (fun _ => none) "a" "b" (Reach.openEmpty rfl) rfl

/-- C3 (code bug): a directory whose newest generation file ends with a
truncated record.  The claim says `open` succeeds, replaying every fully
written record before the truncated tail; the code instead propagates the
stream deserializer's error through `load`'s `entry?`, so `open` fails
with a serde error.  The second conjunct shows the same file without the
truncated tail replays fine, so the failure is due only to the tail. -/
def crashDisk : List (Nat × List Char) :=
  [(1, encodeEntry (.set "a" "b") ++ (encodeEntry (.set "c" "d")).take 10)]

/-- C3: evaluation of the code at the failing input. -/
theorem truncated_tail_open_fails :
    openStore crashDisk = .error (.err .serdeError) ∧
    ∃ s', openStore [(1, encodeEntry (.set "a" "b"))] = .ok s' ∧
      (KvStore.get s' "a").1 = .ok (some "b") := by
  refine ⟨rfl, ⟨_, rfl, rfl⟩⟩

/-- C4: on any reachable store, a `compact` call succeeds, leaves every
`get` result unchanged, removes every generation strictly older than the
compaction generation from both the readers pool and the directory, and
resets the stale-byte counter to zero. -/
theorem compaction_transparency (s : KvStore) (m : String → Option String)
    (hr : Reach s m) :
    ∃ s', KvStore.compact s = .ok s' ∧
      (∀ k, (KvStore.get s' k).1 = (KvStore.get s k).1) ∧
      (∀ g, g < s.current_generation + 1 →
        alFind? s'.readers g = none ∧ alFind? s'.files g = none) ∧
      s'.uncompacted = 0 := by
  have hinv := inv_of_reach s m hr
  obtain ⟨s', hok, hinv', hunc, hcur, hfk, hrk⟩ := compact_spec s m hinv
  refine ⟨s', hok,
    fun k => by rw [get_fst s' m k hinv', get_fst s m k hinv], ?_, hunc⟩
  intro g hg
  constructor
  · cases hfind : alFind? s'.readers g with
    | none => rfl
    | some x =>
      have hmem : g ∈ s'.readers.map Prod.fst := by
        rw [← alFind?_isSome_iff_mem, hfind]
        rfl
      rw [hrk] at hmem
      rcases List.mem_cons.mp hmem with h1 | h1
      · omega
      · rcases List.mem_singleton.mp h1 with rfl
        omega
  · cases hfind : alFind? s'.files g with
    | none => rfl
    | some x =>
      have hmem : g ∈ s'.files.map Prod.fst := by
        rw [← alFind?_isSome_iff_mem, hfind]
        rfl
      rw [hfk] at hmem
      rcases List.mem_cons.mp hmem with h1 | h1
      · omega
      · rcases List.mem_singleton.mp h1 with rfl
        omega

/-- Witness for C4 on the freshly opened store. -/
theorem compaction_transparency_witness :
    ∃ s', KvStore.compact openedEmpty = .ok s' ∧
      (∀ k, (KvStore.get s' k).1 = (KvStore.get openedEmpty k).1) ∧
      (∀ g, g < openedEmpty.current_generation + 1 →
        alFind? s'.readers g = none ∧ alFind? s'.files g = none) ∧
      s'.uncompacted = 0 :=
  compaction_transparency openedEmpty (fun _ => none) (Reach.openEmpty rfl)

/-- C5: `remove` fails with `KeyNotFound` exactly when the key is absent
from the index, a failed `remove` returns the store unchanged, and after a
`set` a first `remove` succeeds, after which `get` returns `None` and a
second `remove` fails with `KeyNotFound`. -/
theorem remove_semantics (s : KvStore) (m : String → Option String)
    (k v : String) (hr : Reach s m) :
    ((KvStore.remove s k).1 = .error (.err .keyNotFound) ↔
      idxFind? s.index k = none) ∧
    (idxFind? s.index k = none →
      KvStore.remove s k = (.error (.err .keyNotFound), s)) ∧
    (∀ s1, KvStore.set s k v = .ok s1 →
      ∃ s2, KvStore.remove s1 k = (.ok (), s2) ∧
        (KvStore.get s2 k).1 = .ok none ∧
        (KvStore.remove s2 k).1 = .error (.err .keyNotFound)) := by
  have hinv := inv_of_reach s m hr
  refine ⟨⟨?_, ?_⟩, remove_not_found s k, ?_⟩
  · intro herr
    cases hf : idxFind? s.index k with
    | none => rfl
    | some cp =>
      rw [remove_fst_found s k cp hf] at herr
      exact Except.noConfusion herr
  · intro hf
    rw [remove_not_found s k hf]
  · intro s1 hset
    obtain ⟨s1', hok, hinv1⟩ := set_spec s m k v hinv
    rw [← Except.ok.inj (hok.symm.trans hset)]
    have hf1 : ∃ cp1, idxFind? s1'.index k = some cp1 := by
      cases hfx : idxFind? s1'.index k with
      | none =>
        have := (hinv1.index_none k).mp hfx
        simp [mupd] at this
      | some cp1 => exact ⟨cp1, rfl⟩
    obtain ⟨cp1, hf1⟩ := hf1
    have hinv2 := remove_found_Inv s1' (mupd m k (some v)) k cp1 hinv1 hf1
    have hfst := remove_fst_found s1' k cp1 hf1
    refine ⟨(KvStore.remove s1' k).2, ?_, ?_, ?_⟩
    · rw [← hfst]
    · rw [get_fst _ _ k hinv2]
      simp [mupd]
    · have hf2 : idxFind? ((KvStore.remove s1' k).2).index k = none :=
        (hinv2.index_none k).mpr (by simp [mupd])
      rw [remove_not_found _ k hf2]

/-- Witness for C5 on the freshly opened store. -/
theorem remove_semantics_witness :
    ((KvStore.remove openedEmpty "a").1 = .error (.err .keyNotFound) ↔
      idxFind? openedEmpty.index "a" = none) ∧
    (idxFind? openedEmpty.index "a" = none →
      KvStore.remove openedEmpty "a" = (.error (.err .keyNotFound), openedEmpty)) ∧
    (∀ s1, KvStore.set openedEmpty "a" "b" = .ok s1 →
      ∃ s2, KvStore.remove s1 "a" = (.ok (), s2) ∧
        (KvStore.get s2 "a").1 = .ok none ∧
        (KvStore.remove s2 "a").1 = .error (.err .keyNotFound)) :=
  remove_semantics openedEmpty (fun _ => none) "a" "b" (Reach.openEmpty rfl)

/-- C6: `get` returns `Ok none` (not an error) when the key is absent; when
present, it reads exactly `len` bytes at `pos` from that generation's file,
decodes one record, returns its value for a `Set` record, and fails with
`UnexpectedCommandType` on a `Remove` record (decode failures propagate). -/
theorem get_semantics (s : KvStore) (k : String) :
    (idxFind? s.index k = none → KvStore.get s k = (.ok none, s)) ∧
    (∀ cp content, idxFind? s.index k = some cp →
      (alFind? s.readers cp.generation).isSome = true →
      alFind? s.files cp.generation = some content →
      (KvStore.get s k).1 =
        (match fromTake ((content.drop cp.pos).take cp.len) with
         | .ok (.set _ value) => .ok (some value)
         | .ok (.remove _) => .error (.err .unexpectedCommandType)
         | .error e => .error e)) := by
  constructor
  · intro hf
    simp only [KvStore.get, hf]
  · intro cp content hf hr hc
    obtain ⟨rpos, hrpos⟩ := Option.isSome_iff_exists.mp hr
    cases ht : fromTake ((content.drop cp.pos).take cp.len) with
    | ok e =>
      cases e with
      | set a b => simp only [KvStore.get, hf, hrpos, hc, ht]
      | remove a => simp only [KvStore.get, hf, hrpos, hc, ht]
    | error e => simp only [KvStore.get, hf, hrpos, hc, ht]

/-- Witness for C6: `get` on the freshly opened store with an absent key. -/
theorem get_semantics_witness :
    KvStore.get openedEmpty "x" = (.ok none, openedEmpty) :=
  (get_semantics openedEmpty "x").1 rfl

/-- C7: compaction is invoked only from within `set`, exactly when the
stale-byte counter strictly exceeds `COMPACTION_THRESHOLD = 1 MiB` after
the index update; `get` and `remove` never compact — they leave the file
list, the stale-byte counter and the current generation untouched. -/
theorem compaction_trigger (s : KvStore) (k v key : String) :
    (KvStore.set s k v =
      if (s.setCore k v).uncompacted > COMPACTION_THRESHOLD
      then (s.setCore k v).compact else .ok (s.setCore k v)) ∧
    COMPACTION_THRESHOLD = 1024 * 1024 ∧
    ((KvStore.get s key).2.current_generation = s.current_generation ∧
     (KvStore.get s key).2.files = s.files ∧
     (KvStore.get s key).2.uncompacted = s.uncompacted) ∧
    ((KvStore.remove s key).2.current_generation = s.current_generation ∧
     (KvStore.remove s key).2.readers = s.readers) := by
  refine ⟨rfl, rfl, ?_, (remove_frame s key).2, (remove_frame s key).1⟩
  rcases get_snd_cases s key with hcase | ⟨gen, pos, _, hcase⟩
  · rw [hcase]
    exact ⟨rfl, rfl, rfl⟩
  · rw [hcase]
    exact ⟨rfl, rfl, rfl⟩

/-- C8: in every reachable store, every index entry points at a generation
present in the readers pool whose file still exists, and its byte range
decodes to exactly one `Set` record for that key; hence `get` never panics
on a missing reader and never fails with `UnexpectedCommandType`, and
`compact`'s reader lookups never panic. -/
theorem index_pointers_valid (s : KvStore) (m : String → Option String)
    (hr : Reach s m) :
    (∀ k cp, idxFind? s.index k = some cp →
      (alFind? s.readers cp.generation).isSome = true ∧
      ∃ content v, alFind? s.files cp.generation = some content ∧
        (content.drop cp.pos).take cp.len = encodeEntry (.set k v)) ∧
    (∀ k, (KvStore.get s k).1 ≠ .error .panicked ∧
      (KvStore.get s k).1 ≠ .error (.err .unexpectedCommandType)) ∧
    KvStore.compact s ≠ .error .panicked := by
  have hinv := inv_of_reach s m hr
  refine ⟨?_, ?_, ?_⟩
  · intro k cp hf
    obtain ⟨v, _, hcp⟩ := hinv.index_some k cp hf
    obtain ⟨content, hcontent, _, hslice, _⟩ := hcp
    refine ⟨?_, content, v, hcontent, hslice⟩
    rw [alFind?_isSome_iff_mem, hinv.readers_keys, ← alFind?_isSome_iff_mem,
      hcontent]
    rfl
  · intro k
    rw [get_fst s m k hinv]
    exact ⟨fun h => Except.noConfusion h, fun h => Except.noConfusion h⟩
  · obtain ⟨s', hok, _⟩ := compact_spec s m hinv
    rw [hok]
    exact fun h => Except.noConfusion h

/-- Witness for C8 on the freshly opened store. -/
theorem index_pointers_valid_witness :
    (∀ k cp, idxFind? openedEmpty.index k = some cp →
      (alFind? openedEmpty.readers cp.generation).isSome = true ∧
      ∃ content v, alFind? openedEmpty.files cp.generation = some content ∧
        (content.drop cp.pos).take cp.len = encodeEntry (.set k v)) ∧
    (∀ k, (KvStore.get openedEmpty k).1 ≠ .error .panicked ∧
      (KvStore.get openedEmpty k).1 ≠ .error (.err .unexpectedCommandType)) ∧
    KvStore.compact openedEmpty ≠ .error .panicked :=
  index_pointers_valid openedEmpty (fun _ => none) (Reach.openEmpty rfl)

/-- C9 counterexample: the code strips every trailing `".log"` from the
file *name* (`trim_end_matches`) before parsing, so `"1.log.log"` yields
generation 1; the claim's numeric *stem* (`file_stem`) of that file is
`"1.log"`, which does not parse as a u64, so the stem reading yields
nothing. -/
theorem sorted_generation_list_stem_counterexample :
    sorted_generation_list [⟨"1.log.log", true⟩] = [1] ∧
    sortedGenerationListStem [⟨"1.log.log", true⟩] = [] :=
  ⟨rfl, rfl⟩

/-- C9 (amended): `sorted_generation_list` returns, in ascending order,
exactly the numbers obtained from regular files with extension `log` whose
name, after repeatedly stripping the `".log"` suffix, parses as a u64;
everything else is silently discarded. -/
theorem sorted_generation_list_correct (entries : List DirEntry) :
    List.Sorted (fun a b => a ≤ b) (sorted_generation_list entries) ∧
    List.Perm (sorted_generation_list entries) (entries.filterMap genOf) ∧
    (∀ g, g ∈ sorted_generation_list entries ↔
      ∃ e ∈ entries, e.isFile = true ∧ rustExtension e.name = some "log" ∧
        parseU64 (trimEndLog e.name) = some g) := by
  refine ⟨List.sorted_insertionSort _ _, List.perm_insertionSort _ _, ?_⟩
  intro g
  rw [sorted_generation_list, (List.perm_insertionSort _ _).mem_iff,
    List.mem_filterMap]
  constructor
  · rintro ⟨e, he, hg⟩
    rw [genOf] at hg
    by_cases hcond : e.isFile = true ∧ rustExtension e.name = some "log"
    · rw [if_pos hcond] at hg
      exact ⟨e, he, hcond.1, hcond.2, hg⟩
    · rw [if_neg hcond] at hg
      exact Option.noConfusion hg
  · rintro ⟨e, he, h1, h2, h3⟩
    refine ⟨e, he, ?_⟩
    rw [genOf, if_pos ⟨h1, h2⟩]
    exact h3

/-- C10: `get` leaves the index, the stale-byte counter, the current
generation, the writer position, and every log file's contents unchanged;
only a cached reader cursor may change, and the set of pooled readers is
preserved. -/
theorem get_frame (s : KvStore) (m : String → Option String)
    (hr : Reach s m) (k : String) :
    (KvStore.get s k).2.index = s.index ∧
    (KvStore.get s k).2.uncompacted = s.uncompacted ∧
    (KvStore.get s k).2.current_generation = s.current_generation ∧
    (KvStore.get s k).2.writerPos = s.writerPos ∧
    (KvStore.get s k).2.files = s.files ∧
    (KvStore.get s k).2.readers.map Prod.fst = s.readers.map Prod.fst := by
  have hinv := inv_of_reach s m hr
  rcases get_snd_cases s k with hcase | ⟨gen, pos, hmem, hcase⟩
  · rw [hcase]
    exact ⟨rfl, rfl, rfl, rfl, rfl, rfl⟩
  · rw [hcase]
    refine ⟨rfl, rfl, rfl, rfl, rfl, ?_⟩
    exact alSet_map_fst_present s.readers gen pos hinv.readers_sorted
      (by rw [← alFind?_isSome_iff_mem]; exact hmem)

/-- Witness for C10 on the freshly opened store. -/
theorem get_frame_witness :
    (KvStore.get openedEmpty "a").2.index = openedEmpty.index ∧
    (KvStore.get openedEmpty "a").2.uncompacted = openedEmpty.uncompacted ∧
    (KvStore.get openedEmpty "a").2.current_generation =
      openedEmpty.current_generation ∧
    (KvStore.get openedEmpty "a").2.writerPos = openedEmpty.writerPos ∧
    (KvStore.get openedEmpty "a").2.files = openedEmpty.files ∧
    (KvStore.get openedEmpty "a").2.readers.map Prod.fst =
      openedEmpty.readers.map Prod.fst :=
  get_frame openedEmpty (fun _ => none) (Reach.openEmpty rfl) "a"

end Kvs
